import Mathlib

/-!
Verification development for the `lsprotocol` code generator.

The Python sources embedded here are:
  * `src/generator/py_generator.py` — the code generator: `to_snake_case`,
    the intermediate representation (`Argument`, `Function`, `Variable`,
    `Class`), `CodeGenerator` (type-expression compiler `type_`/`basetype`/…,
    `structure`, `enumeration`, `typealias`, `request`, `notification`,
    `generate`, and the three output properties), `NameOrderer` and
    `ImportsManager`.
  * `src/utils.py` — `get_default_value` / `TypedDictValue`.

Embedding conventions, fixed throughout:
  * Python exceptions are modelled with `Except PyErr`; `PyErr` names the
    Python exception class that would be raised.
  * Python `Optional` fields that the generator only ever treats as
    possibly-absent sequences (`parents`, `variables`, `methods`,
    `arguments`, `extends`, `mixins`) are modelled as plain lists, `[]`
    standing for Python `None`: the generator only ever iterates them or
    tests their truthiness, and `None` and `[]` are both falsy, so the two
    are indistinguishable on every code path modelled here.
  * The dataclass field `annotation` is called `annot` here; `variables`
    (a Lean keyword remnant) is called `variables_`, and `extends` (a Lean
    keyword) is called `extends_`.  Metadata fields the generator never
    reads (`since`, `sinceTags`, `proposed`, `deprecated`,
    `registrationMethod`, `registrationOptions`, `partialResult`,
    `errorData`, `supportsCustomValues`) are omitted.
  * Machine-specific recursion exhaustion (Python's `RecursionError`) is
    modelled by an explicit fuel parameter; fuel is consumed on every call
    of the recursive placement functions, and running out raises
    `PyErr.recursionError` exactly where Python would raise.
  * Final textual rendering (`get_code`, `make_docstring`, import lines) is
    the spec's out-of-scope Emitter and is not modelled; artifacts are
    compared structurally.
-/

namespace PyGen

/-- Python exception classes raised by the modelled code.  `notGenerated`
stands for the `Exception("code not generated yet")` gate. -/
inductive PyErr where
  | recursionError
  | typeError
  | keyError
  | valueError
  | notGenerated
deriving DecidableEq, Repr

deriving instance DecidableEq for Except

/-! ### Characters used when modelling Python string literals -/

/-- backslash -/
def bsC : Char := Char.ofNat 92
/-- single quote -/
def sqC : Char := Char.ofNat 39
/-- double quote -/
def dqC : Char := Char.ofNat 34
/-- newline -/
def nlC : Char := Char.ofNat 10
/-- carriage return -/
def crC : Char := Char.ofNat 13
/-- horizontal tab -/
def tabC : Char := Char.ofNat 9
/-- DEL, 0x7f -/
def delC : Char := Char.ofNat 127
/-- underscore -/
def usC : Char := '_'

/-! ### The identifier scan

`py_generator.py` matches identifiers with
`re.compile(r"([a-zA-Z_]\w+)").findall`: a match is a `[a-zA-Z_]` character
followed by one or more word characters, and `findall` returns
non-overlapping matches left to right.  Equivalently: in every maximal run
of word characters, drop the leading digits (they cannot start a match);
what is left is a match iff it has at least two characters.  `identsGo`
scans with an accumulator holding the current word run, reversed. -/

def isWordChar (c : Char) : Bool := c.isAlpha || c.isDigit || c = '_'

def isIdentStart (c : Char) : Bool := c.isAlpha || c = '_'

/-- Close a word run for the generator's regex: drop leading digits, keep
the rest iff at least two characters long. -/
def finishRun (acc : List Char) : List String :=
  let r := (acc.reverse).dropWhile Char.isDigit
  if 2 ≤ r.length then [String.mk r] else []

def identsGo : List Char → List Char → List String
  | acc, [] => finishRun acc
  | acc, c :: rest =>
    if isWordChar c then identsGo (c :: acc) rest
    else finishRun acc ++ identsGo [] rest

/-- `re.findall(r"([a-zA-Z_]\w+)", s)`. -/
def findIdents (s : String) : List String := identsGo [] s.data

/-- Close a word run for the spec-side notion of a bare identifier token:
a maximal word run that starts with a letter or underscore, of any length.
Used only to state claims; the generator's own scan is `findIdents`. -/
def finishRunSpec (acc : List Char) : List String :=
  let r := acc.reverse
  match r with
  | [] => []
  | c :: _ => if isIdentStart c then [String.mk r] else []

def identsGoSpec : List Char → List Char → List String
  | acc, [] => finishRunSpec acc
  | acc, c :: rest =>
    if isWordChar c then identsGoSpec (c :: acc) rest
    else finishRunSpec acc ++ identsGoSpec [] rest

/-- Spec-side tokenizer: every maximal identifier-shaped run, including
single-character identifiers. -/
def specTokens (s : String) : List String := identsGoSpec [] s.data

/-! ### First-seen de-duplication

`NameOrderer.ordered_names` and `ImportsManager.resolve` both keep the
first occurrence of each name.  `dedupGo` mirrors the loop with its
`defined` set. -/

def dedupGo (seen : List String) : List String → List String
  | [] => []
  | x :: xs => if x ∈ seen then dedupGo seen xs else x :: dedupGo (x :: seen) xs

def dedupFirst (l : List String) : List String := dedupGo [] l

/-- Index of the first occurrence of `x` in `l` (length of `l` if absent). -/
def firstIdx (x : String) : List String → Nat
  | [] => 0
  | y :: ys => if y = x then 0 else firstIdx x ys + 1

/-! ### `to_snake_case`

`re.sub(r"([^A-Z])([A-Z])", r"\1_\2", text).lower()`.  The scan consumes
two characters per replacement; since the second character of a match is
always uppercase, it can never be the first character of another match, so
consuming it skips no match. -/

def isUpperAZ (c : Char) : Bool := 'A' ≤ c && c ≤ 'Z'

def isLowerAZ (c : Char) : Bool := 'a' ≤ c && c ≤ 'z'

/-- The `re.sub` scan: examine adjacent pairs, on a match emit both
characters with an underscore in between and resume after the pair. -/
def snakeGo : List Char → List Char
  | [] => []
  | [c] => [c]
  | c0 :: c1 :: rest =>
    if ¬ isUpperAZ c0 && isUpperAZ c1 then c0 :: usC :: c1 :: snakeGo rest
    else c0 :: snakeGo (c1 :: rest)

/-- `to_snake_case` from `py_generator.py`.  Python's `str.lower()` is
modelled by `Char.toLower`, which agrees with it on ASCII (the only
characters appearing in metamodel type names). -/
def to_snake_case (s : String) : String :=
  String.mk ((snakeGo s.data).map Char.toLower)

/-- Spec side: insert a separator before every uppercase character whose
predecessor is not uppercase (the amended description of the transform). -/
def boundaryGo (prev : Char) : List Char → List Char
  | [] => []
  | c :: rest =>
    if ¬ isUpperAZ prev && isUpperAZ c then usC :: c :: boundaryGo c rest
    else c :: boundaryGo c rest

def boundaryIns : List Char → List Char
  | [] => []
  | c :: rest => c :: boundaryGo c rest

/-- Amended claim transform: separator at each non-uppercase→uppercase
boundary, then lowercase. -/
def snakeAmended (s : String) : String :=
  String.mk ((boundaryIns s.data).map Char.toLower)

/-- Claim-as-written transform: separator at each lowercase→uppercase
boundary, then lowercase. -/
def claimBoundaryGo (prev : Char) : List Char → List Char
  | [] => []
  | c :: rest =>
    if isLowerAZ prev && isUpperAZ c then usC :: c :: claimBoundaryGo c rest
    else c :: claimBoundaryGo c rest

def claimBoundaryIns : List Char → List Char
  | [] => []
  | c :: rest => c :: claimBoundaryGo c rest

def snakeClaim (s : String) : String :=
  String.mk ((claimBoundaryIns s.data).map Char.toLower)

/-! ### Python `repr` of strings and integers, and its inverse

`py_generator.py` renders literal values with `f"{v!r}"` (enumeration
entry values, wire method strings, string-literal types).  `pyReprStr`
models CPython's `repr` for `str` faithfully on ASCII: quote selection
(single quote, switching to double quotes iff the string contains a single
quote and no double quote), backslash-escaping of the backslash and the
chosen quote, `\t` `\n` `\r` escapes, and `\xHH` (lowercase hex) for other
control characters below 0x20 and for 0x7f.  Characters at 0x80 and above are
kept verbatim (CPython escapes the non-printable ones among them; no such
character appears in the metamodel).  `parsePyLit` models Python's reading
of the emitted literal (the round-trip direction of the claim). -/

def hexDigitChar (n : Nat) : Char :=
  if n < 10 then Char.ofNat (48 + n) else Char.ofNat (87 + n)

def hexVal (c : Char) : Option Nat :=
  if '0' ≤ c ∧ c ≤ '9' then some (c.toNat - 48)
  else if 'a' ≤ c ∧ c ≤ 'f' then some (c.toNat - 87)
  else if 'A' ≤ c ∧ c ≤ 'F' then some (c.toNat - 55)
  else none

def pyQuote (s : String) : Char :=
  if s.data.contains sqC ∧ ¬ s.data.contains dqC then dqC else sqC

def escapeChar (q c : Char) : List Char :=
  if c = bsC then [bsC, bsC]
  else if c = q then [bsC, q]
  else if c = tabC then [bsC, 't']
  else if c = nlC then [bsC, 'n']
  else if c = crC then [bsC, 'r']
  else if c.toNat < 32 ∨ c = delC then
    [bsC, 'x', hexDigitChar (c.toNat / 16), hexDigitChar (c.toNat % 16)]
  else [c]

/-- CPython `repr` for `str` (ASCII-faithful, see section comment). -/
def pyReprStr (s : String) : String :=
  let q := pyQuote s
  String.mk (q :: s.data.flatMap (escapeChar q) ++ [q])

def unescapeChar (e : Char) : Option Char :=
  if e = 'n' then some nlC
  else if e = 'r' then some crC
  else if e = 't' then some tabC
  else if e = bsC then some bsC
  else if e = sqC then some sqC
  else if e = dqC then some dqC
  else none

/-- Python's reading of a quoted string body: consume until the closing
quote, which must end the input. -/
def parseBody (q : Char) : List Char → Option (List Char)
  | [] => none
  | c :: rest =>
    if c = q then if rest.isEmpty then some [] else none
    else if c = bsC then
      match rest with
      | [] => none
      | e :: rest2 =>
        if e = 'x' then
          match rest2 with
          | h1 :: h2 :: rest3 =>
            match hexVal h1, hexVal h2, parseBody q rest3 with
            | some a, some b, some tl => some (Char.ofNat (16 * a + b) :: tl)
            | _, _, _ => none
          | _ => none
        else
          match unescapeChar e, parseBody q rest2 with
          | some d, some tl => some (d :: tl)
          | _, _ => none
    else
      match parseBody q rest with
      | some tl => some (c :: tl)
      | none => none

/-- Python's reading of a string literal: an opening quote, a body, a
matching closing quote. -/
def parsePyStrLit (s : String) : Option String :=
  match s.data with
  | [] => none
  | c :: rest =>
    if c = sqC ∨ c = dqC then (parseBody c rest).map String.mk else none

/-- Decimal digits of `n`, most significant first; `fuel ≥ n` suffices. -/
def natToDigits (fuel : Nat) (n : Nat) : List Char :=
  match fuel with
  | 0 => []
  | f + 1 =>
    if n < 10 then [Char.ofNat (48 + n)]
    else natToDigits f (n / 10) ++ [Char.ofNat (48 + n % 10)]

/-- CPython `repr` for `int`: canonical decimal, `-` sign for negatives. -/
def pyDecimal (n : Int) : String :=
  if n < 0 then String.mk ('-' :: natToDigits (n.natAbs + 1) n.natAbs)
  else String.mk (natToDigits (n.natAbs + 1) n.natAbs)

def digitVal (c : Char) : Option Nat :=
  if '0' ≤ c ∧ c ≤ '9' then some (c.toNat - 48) else none

def parseNatGo (acc : Nat) : List Char → Option Nat
  | [] => some acc
  | c :: rest =>
    match digitVal c with
    | some d => parseNatGo (acc * 10 + d) rest
    | none => none

def parseNatLit : List Char → Option Nat
  | [] => none
  | l => parseNatGo 0 l

/-- Python's reading of a decimal integer literal (with optional sign). -/
def parseIntLit (s : String) : Option Int :=
  match s.data with
  | [] => none
  | c :: rest =>
    if c = '-' then (parseNatLit rest).map (fun n => -(n : Int))
    else (parseNatLit (c :: rest)).map (fun n => (n : Int))

/-! ### The generator's intermediate representation

`Argument`, `Function`, `Variable`, `Class` from `py_generator.py`
(rendering methods `get_code` are the out-of-scope Emitter).  `Variable`'s
`__post_init__` check (annotation or value must be assigned) holds for
every `Variable` the generator constructs and is not modelled. -/

structure Argument where
  name : String
  annot : Option String := none
  value : Option String := none
deriving DecidableEq, Repr

structure Function where
  name : String
  arguments : List Argument := []
  annot : Option String := none
  body : Option String := none
  decorators : List String := []
  docstring : Option String := none
deriving DecidableEq, Repr

structure Variable where
  name : String
  annot : Option String := none
  value : Option String := none
  docstring : Option String := none
deriving DecidableEq, Repr

structure Class where
  name : String
  variables_ : List Variable := []
  methods : List Function := []
  parents : List String := []
  decorators : List String := []
  docstring : Option String := none
deriving DecidableEq, Repr

/-- The two kinds of named definition objects the generator accumulates in
`self._types` and feeds to `NameOrderer` / `ImportsManager`. -/
inductive Defn where
  | cls (c : Class)
  | var (v : Variable)
deriving DecidableEq, Repr

def Defn.name : Defn → String
  | .cls c => c.name
  | .var v => v.name

/-! ### The metamodel type AST

`Type` from `metaModel_schema.py` as one inductive.  The `name` of a
`BaseType` (and of the base-shaped `MapKeyTypeOpt` and `EnumerationType`)
is carried as the `.value` string of the corresponding Python enum, which
is the only thing `basetype`/`enumerationtype` read.  A structure
literal's properties are carried as tuples
`(name, type, optional, documentation)`; `andT`/`orT`/`tupleT` stand for
the Python keywords `and`/`or`/`tuple`. -/

inductive Ty where
  | base (name : String)
  | reference (name : String)
  | array (element : Ty)
  | mapT (key : Ty) (value : Ty)
  | andT (items : List Ty)
  | orT (items : List Ty)
  | tupleT (items : List Ty)
  | literal (properties : List (String × Ty × Option Bool × Option String))
      (documentation : Option String)
  | stringLiteral (value : String)
  | integerLiteral (value : Int)
  | booleanLiteral (value : Bool)
deriving Repr

/-! ### The type-expression compiler

`CodeGenerator.type_` dispatched over the `Type` union, together with the
per-kind methods `basetype` … `booleanliteraltype`.  A structure-literal
type compiles via `literaltype` → `structureliteral`; for a literal with
properties, `structureliteral` evaluates
`"\n".flatten([self.property(p) …])` on `Variable` objects and raises
`TypeError`, so only the empty literal compiles (to
`f"Literal[{''!r}]"`). -/

mutual
def typeCode : Ty → Except PyErr String
  | .base name =>
    -- builtin_type_map in `basetype`; unknown base names pass through
    if name = "integer" then .ok "int"
    else if name = "decimal" then .ok "float"
    else if name = "string" then .ok "str"
    else if name = "boolean" then .ok "bool"
    else if name = "null" then .ok "None"
    else .ok name
  | .reference name => .ok name
  | .array e => do
    let c ← typeCode e
    .ok ("List[" ++ c ++ "]")
  | .mapT k v => do
    let kc ← typeCode k
    let vc ← typeCode v
    .ok ("Dict[" ++ kc ++ ", " ++ vc ++ "]")
  | .andT items => do
    let cs ← typeCodeList items
    .ok ("Union[" ++ String.intercalate ", " cs ++ "]")
  | .orT items => do
    let cs ← typeCodeList items
    .ok ("Union[" ++ String.intercalate ", " cs ++ "]")
  | .tupleT items => do
    let cs ← typeCodeList items
    .ok ("Tuple[" ++ String.intercalate ", " cs ++ "]")
  | .literal props _doc =>
    if props.isEmpty then .ok ("Literal[" ++ pyReprStr "" ++ "]")
    else .error .typeError
  | .stringLiteral v => .ok ("Literal[" ++ pyReprStr v ++ "]")
  | .integerLiteral v => .ok ("Literal[" ++ pyDecimal v ++ "]")
  | .booleanLiteral v => .ok ("Literal[" ++ (if v then "True" else "False") ++ "]")

def typeCodeList : List Ty → Except PyErr (List String)
  | [] => .ok []
  | t :: ts => do
    let c ← typeCode t
    let cs ← typeCodeList ts
    .ok (c :: cs)
end

/-- `type_` on an `Optional[Type]`: `type_(None)` returns the string
`"None"`. -/
def typeCodeOpt : Option Ty → Except PyErr String
  | none => .ok "None"
  | some t => typeCode t

/-! ### The metamodel records (`metaModel_schema.py`) -/

structure Property where
  name : String
  type : Ty
  optional : Option Bool := none
  documentation : Option String := none
deriving Repr

structure Structure where
  name : String
  extends_ : List Ty := []
  mixins : List Ty := []
  properties : List Property := []
  documentation : Option String := none
deriving Repr

/-- An enumeration entry value: `Union[string, number]`.  The metamodel's
enumerations are string- or integer-backed; `float` values do not occur
and are not represented. -/
inductive EnumVal where
  | s (v : String)
  | n (v : Int)
deriving DecidableEq, Repr

def pyReprVal : EnumVal → String
  | .s v => pyReprStr v
  | .n v => pyDecimal v

/-- Python's reading of the literal emitted by `pyReprVal`. -/
def parsePyLit (str : String) : Option EnumVal :=
  match str.data with
  | c :: _ =>
    if c = sqC ∨ c = dqC then (parsePyStrLit str).map .s
    else (parseIntLit str).map .n
  | [] => none

structure EnumerationEntry where
  name : String
  value : EnumVal
deriving DecidableEq, Repr

structure Enumeration where
  name : String
  type : Ty
  values : List EnumerationEntry := []
deriving Repr

structure TypeAliasD where
  name : String
  type : Ty
  documentation : Option String := none
deriving Repr

inductive MessageDirection where
  | clientToServer
  | serverToClient
  | both
deriving DecidableEq, Repr

structure Request where
  method : String
  typeName : Option String := none
  params : Option Ty := none
  result : Ty
  messageDirection : MessageDirection
  documentation : Option String := none
deriving Repr

structure Notification where
  method : String
  typeName : Option String := none
  params : Option Ty := none
  messageDirection : MessageDirection
  documentation : Option String := none
deriving Repr

structure MetaData where
  version : String
deriving DecidableEq, Repr

structure MetaModel where
  metaData : MetaData
  requests : List Request := []
  notifications : List Notification := []
  structures : List Structure := []
  enumerations : List Enumeration := []
  typeAliases : List TypeAliasD := []
deriving Repr

/-! ### The definition builder (`CodeGenerator.property`, `.structure`,
`.enumeration`, `.typealias`, `.pull_reference`) -/

/-- `CodeGenerator.property`: compile the type, wrap in `NotRequired[...]`
when the `optional` flag is truthy, and build the field `Variable`. -/
def compileProperty (p : Property) : Except PyErr Variable := do
  let t ← typeCode p.type
  let t2 := if p.optional = some true then "NotRequired[" ++ t ++ "]" else t
  .ok { name := p.name, annot := some t2, docstring := p.documentation }

/-- `self._structure_maps[...]` lookup built by dict comprehension
(later entries win).  `pull_reference` indexes it with `tp.name`; on a
non-reference node the attribute access / key lookup raises, modelled as
`none`. -/
def pullReference (smap : List Structure) (t : Ty) : Option Structure :=
  match t with
  | .reference n => (smap.reverse).find? (fun s => s.name = n)
  | _ => none

def updateStruct (smap : List Structure) (n : String) (props : List Property) :
    List Structure :=
  smap.map (fun s => if s.name = n then { s with properties := props } else s)

/-- The mixin loop of `CodeGenerator.structure`:
`properties = tp.properties or list()` aliases the structure's own
property list exactly when it is non-empty (`aliased`), in which case
every `properties.extend(ref.properties)` also mutates the stored
structure; the updated map is threaded so later lookups (including by
later mixins and later structures) observe the mutation.  An unresolvable
mixin raises `KeyError` mid-loop. -/
def mixinsFold (tpName : String) (aliased : Bool) :
    List Ty → List Structure → List Property →
    Except PyErr (List Property × List Structure)
  | [], smap, props => .ok (props, smap)
  | m :: ms, smap, props =>
    match pullReference smap m with
    | none => .error .keyError
    | some ref =>
      let props2 := props ++ ref.properties
      let smap2 := if aliased then updateStruct smap tpName props2 else smap
      mixinsFold tpName aliased ms smap2 props2

/-- `CodeGenerator.structure`.  Parent list: compiled `extends`, or
`["TypedDict"]` when `extends` is empty/absent.  Returns the compiled
`Class` together with the structure list as mutated by the mixin loop. -/
def compileStructure (smap : List Structure) (tp : Structure) :
    Except PyErr (Class × List Structure) := do
  let parents ← if tp.extends_.isEmpty then .ok ["TypedDict"]
    else typeCodeList tp.extends_
  let aliased := !tp.properties.isEmpty
  let (props, smap2) ← mixinsFold tp.name aliased tp.mixins smap tp.properties
  let vars ← props.mapM compileProperty
  .ok ({ name := tp.name, variables_ := vars, parents := parents,
         docstring := tp.documentation }, smap2)

/-- `CodeGenerator.enumeration`: entries in declared order, each value
rendered with `f"{val.value!r}"`; parents are the compiled backing type
and `Enum`. -/
def compileEnumeration (tp : Enumeration) : Except PyErr Class := do
  let t ← typeCode tp.type
  .ok { name := tp.name,
        variables_ := tp.values.map
          (fun v => { name := v.name, value := some (pyReprVal v.value) }),
        parents := [t, "Enum"] }

/-- `re.sub(r"\b(LSPObject|LSPArray)\b", r'"\1"', typ)` in
`CodeGenerator.typealias`: wrap exactly those maximal word runs equal to
one of the two names in double quotes. -/
def emitRun (acc : List Char) : List Char :=
  let r := acc.reverse
  if r = "LSPObject".data ∨ r = "LSPArray".data then dqC :: r ++ [dqC] else r

def quoteRuns : List Char → List Char → List Char
  | acc, [] => emitRun acc
  | acc, c :: rest =>
    if isWordChar c then quoteRuns (c :: acc) rest
    else emitRun acc ++ c :: quoteRuns [] rest

def lspQuote (s : String) : String := String.mk (quoteRuns [] s.data)

/-- `CodeGenerator.typealias`. -/
def compileTypeAlias (tp : TypeAliasD) : Except PyErr Variable := do
  let t ← typeCode tp.type
  .ok { name := tp.name, annot := some "TypeAlias", value := some (lspQuote t),
        docstring := tp.documentation }

/-! ### The message compiler (`CodeGenerator.request`, `.notification`)
and the generator state -/

/-- Python-dict insertion into a handle map: replace in place if the key
exists (keeping its position), else append. -/
def dictInsert (m : List (String × String)) (k v : String) :
    List (String × String) :=
  if m.any (fun p => p.1 = k) then
    m.map (fun p => if p.1 = k then (k, v) else p)
  else m ++ [(k, v)]

/-- The mutable state of a `CodeGenerator` instance: `self._types`,
`self._server`, `self._server_handle_map`, `self._client`,
`self._client_handle_map`, the structure objects (shared between
`self.model.structures` and `self._structure_maps`, and mutated by the
mixin loop), and `self._is_generated`. -/
structure GenState where
  types : List Defn := []
  server : Class := { name := "Server" }
  serverHandleMap : List (String × String) := []
  client : Class := { name := "Client" }
  clientHandleMap : List (String × String) := []
  structures : List Structure := []
  isGenerated : Bool := false

/-- `CodeGenerator.__init__`. -/
def initState (m : MetaModel) : GenState :=
  { structures := m.structures }

def addMethods (c : Class) (fs : List Function) : Class :=
  { c with methods := c.methods ++ fs }

def selfArg : Argument := { name := "self" }

/-- `CodeGenerator.request`.  `to_snake_case(tp.typeName)` raises
`TypeError` when `typeName` is `None`. -/
def requestStep (st : GenState) (tp : Request) : Except PyErr GenState := do
  let tn ← match tp.typeName with
    | some s => Except.ok s
    | none => Except.error PyErr.typeError
  let funcName := to_snake_case tn
  let handleFuncName := "handle_" ++ funcName
  let pc ← typeCodeOpt tp.params
  let rc ← typeCode tp.result
  let requestFunction : Function :=
    { name := funcName,
      arguments := [selfArg, { name := "params", annot := some pc }],
      annot := some "None",
      body := some ("self.request(method=" ++ pyReprStr tp.method
        ++ ", params=params)"),
      docstring := tp.documentation }
  let handleResultFunction : Function :=
    { name := handleFuncName,
      arguments := [selfArg, { name := "context", annot := some "dict" },
        { name := "result", annot := some rc }],
      annot := some "None" }
  let handleRequestFunction : Function :=
    { name := handleFuncName,
      arguments := [selfArg, { name := "context", annot := some "dict" },
        { name := "params", annot := some pc }],
      annot := some rc }
  let st1 :=
    if tp.messageDirection = .clientToServer ∨ tp.messageDirection = .both then
      { st with
        client := addMethods st.client [requestFunction, handleResultFunction],
        clientHandleMap := dictInsert st.clientHandleMap tp.method handleFuncName,
        server := addMethods st.server [handleRequestFunction],
        serverHandleMap := dictInsert st.serverHandleMap tp.method handleFuncName }
    else st
  let st2 :=
    if tp.messageDirection = .serverToClient ∨ tp.messageDirection = .both then
      { st1 with
        server := addMethods st1.server [requestFunction, handleResultFunction],
        serverHandleMap := dictInsert st1.serverHandleMap tp.method handleFuncName,
        client := addMethods st1.client [handleRequestFunction],
        clientHandleMap := dictInsert st1.clientHandleMap tp.method handleFuncName }
    else st1
  .ok st2

/-- `CodeGenerator.notification`. -/
def notificationStep (st : GenState) (tp : Notification) :
    Except PyErr GenState := do
  let tn ← match tp.typeName with
    | some s => Except.ok s
    | none => Except.error PyErr.typeError
  let funcName := to_snake_case tn
  let handleFuncName := "handle_" ++ funcName
  let pc ← typeCodeOpt tp.params
  let notifyFunction : Function :=
    { name := funcName,
      arguments := [selfArg, { name := "params", annot := some pc }],
      annot := some "None",
      body := some ("self.notify(method=" ++ pyReprStr tp.method
        ++ ", params=params)"),
      docstring := tp.documentation }
  let handleNotificationFunction : Function :=
    { name := handleFuncName,
      arguments := [selfArg, { name := "context", annot := some "dict" },
        { name := "params", annot := some pc }],
      annot := some "None" }
  let st1 :=
    if tp.messageDirection = .clientToServer ∨ tp.messageDirection = .both then
      { st with
        client := addMethods st.client [notifyFunction],
        server := addMethods st.server [handleNotificationFunction],
        serverHandleMap := dictInsert st.serverHandleMap tp.method handleFuncName }
    else st
  let st2 :=
    if tp.messageDirection = .serverToClient ∨ tp.messageDirection = .both then
      { st1 with
        server := addMethods st1.server [notifyFunction],
        client := addMethods st1.client [handleNotificationFunction],
        clientHandleMap := dictInsert st1.clientHandleMap tp.method handleFuncName }
    else st1
  .ok st2

/-- The structures loop of `generate`: iterate the structure list in
declaration order (fetching each structure's current — possibly
already-mutated — object by name), thread the mutations, append each
compiled class.  Names are unique by the metamodel invariant, so the
name-indexed fetch agrees with Python's positional iteration over the
shared objects; a failed fetch (impossible for lists built from the state
itself) is a `KeyError`. -/
def structuresGo (acc : List Defn) (smap : List Structure) :
    List String → Except PyErr (List Defn × List Structure)
  | [] => .ok (acc, smap)
  | n :: ns =>
    match (smap.reverse).find? (fun s => s.name = n) with
    | none => .error .keyError
    | some tp => do
      let (c, smap2) ← compileStructure smap tp
      structuresGo (acc ++ [.cls c]) smap2 ns

/-- `CodeGenerator.generate`: `metadata` (a no-op), then enumerations,
structures, type aliases into `self._types`, then requests and
notifications, finally `self._is_generated = True`. -/
def generate (m : MetaModel) : Except PyErr GenState := do
  let st0 := initState m
  let enums ← m.enumerations.mapM compileEnumeration
  let (structDefs, smap) ←
    structuresGo [] st0.structures (m.structures.map (fun s => s.name))
  let aliases ← m.typeAliases.mapM compileTypeAlias
  let types := enums.map Defn.cls ++ structDefs ++ aliases.map Defn.var
  let st1 := { st0 with types := types, structures := smap }
  let st2 ← m.requests.foldlM requestStep st1
  let st3 ← m.notifications.foldlM notificationStep st2
  .ok { st3 with isGenerated := true }

/-! ### The dependency orderer (`NameOrderer`)

`define_name` recursively places dependencies, guarded by the
`defined_names` list.  The recursive placements triggered from variable
annotations and alias bound expressions are wrapped in
`try: … except RecursionError: pass` (`caught` records that this fired);
the placements triggered from the parents loop are *not* wrapped, so a
recursion overflow there propagates.  Fuel models the interpreter's
recursion limit and is consumed on every call. -/

/-- `self.name_map = {tp.name: tp for tp in names}` (later entries win),
indexed. -/
def nmLookup (names : List Defn) (s : String) : Option Defn :=
  (names.reverse).find? (fun d => d.name = s)

structure OrdererState where
  defined : List String
  caught : Bool
deriving DecidableEq, Repr

/-- The parents loop of `define_name` (no `RecursionError` handler). -/
def parentsLoop (rec9 : Defn → OrdererState → Except PyErr OrdererState)
    (names : List Defn) : List String → OrdererState → Except PyErr OrdererState
  | [], st => .ok st
  | p :: ps, st =>
    if p ∈ st.defined then parentsLoop rec9 names ps st
    else match nmLookup names p with
      | some obj =>
        match rec9 obj st with
        | .ok st1 => parentsLoop rec9 names ps st1
        | .error e => .error e
      | none => parentsLoop rec9 names ps st

/-- The token loop over one annotation / bound expression, with the
`except RecursionError: pass` handler (other exceptions propagate). -/
def tokensLoop (rec9 : Defn → OrdererState → Except PyErr OrdererState)
    (names : List Defn) : List String → OrdererState → Except PyErr OrdererState
  | [], st => .ok st
  | t :: ts, st =>
    if t ∈ st.defined then tokensLoop rec9 names ts st
    else match nmLookup names t with
      | some obj =>
        match rec9 obj st with
        | .ok st1 => tokensLoop rec9 names ts st1
        | .error .recursionError => tokensLoop rec9 names ts { st with caught := true }
        | .error e => .error e
      | none => tokensLoop rec9 names ts st

/-- The variables loop of `define_name`: scan each variable's annotation
(when set) for identifier tokens. -/
def varsLoop (rec9 : Defn → OrdererState → Except PyErr OrdererState)
    (names : List Defn) : List Variable → OrdererState → Except PyErr OrdererState
  | [], st => .ok st
  | v :: vs, st =>
    match v.annot with
    | some a =>
      match tokensLoop rec9 names (findIdents a) st with
      | .ok st1 => varsLoop rec9 names vs st1
      | .error e => .error e
    | none => varsLoop rec9 names vs st

/-- `NameOrderer.define_name`.  For a `Class`: place parents (unguarded),
then annotation tokens (guarded), then append the class name.  For a
`Variable`: when its annotation is `"TypeAlias"`, place the bound
expression's tokens (guarded; `findall(None)` on a missing value raises
`TypeError`), then append the name; any other variable is appended
directly. -/
def defineName : Nat → List Defn → Defn → OrdererState → Except PyErr OrdererState
  | 0, _, _, _ => .error .recursionError
  | f + 1, names, .cls c, st =>
    match parentsLoop (defineName f names) names c.parents st with
    | .error e => .error e
    | .ok st1 =>
      match varsLoop (defineName f names) names c.variables_ st1 with
      | .error e => .error e
      | .ok st2 => .ok { st2 with defined := st2.defined ++ [c.name] }
  | f + 1, names, .var v, st =>
    if v.annot = some "TypeAlias" then
      match v.value with
      | none => .error .typeError
      | some s =>
        match tokensLoop (defineName f names) names (findIdents s) st with
        | .error e => .error e
        | .ok st1 => .ok { st1 with defined := st1.defined ++ [v.name] }
    else .ok { st with defined := st.defined ++ [v.name] }

/-- The top loop of `ordered_names`: `define_name` on every input, in
order, starting from an empty `defined_names`. -/
def runDefine (fuel : Nat) (names : List Defn) : Except PyErr OrdererState :=
  names.foldlM (fun st d => defineName fuel names d st) ⟨[], false⟩

/-- The de-duplicated name sequence of the orderer's output. -/
def orderedKeys (fuel : Nat) (names : List Defn) : Except PyErr (List String) :=
  (runDefine fuel names).map (fun st => dedupFirst st.defined)

/-- `NameOrderer.ordered_names`: the first-occurrence names, each mapped
back through `name_map` (`self.name_map[name]`; every defined name is a
map key, so the `getD` default is never used). -/
def orderedNames (fuel : Nat) (names : List Defn) : Except PyErr (List Defn) :=
  (orderedKeys fuel names).map
    (fun ks => ks.map (fun k => (nmLookup names k).getD (.var { name := k })))

/-! ### The import resolver (`ImportsManager.resolve`) -/

/-- One annotation's worth of the resolve loop: append each token that is
a defined name and not yet imported. -/
def scanToks (names : List String) (imports : List String)
    (toks : List String) : List String :=
  toks.foldl
    (fun imps t =>
      if t ∈ imps then imps else if t ∈ names then imps ++ [t] else imps)
    imports

/-- `ImportsManager.resolve`.  For a `Class` consumer: parent names are
compared whole against the defined-name set; variable annotations, method
argument annotations and method return annotations are scanned for
identifier tokens.  For a `Variable` consumer: its annotation is scanned,
and additionally its bound value when the annotation is `"TypeAlias"`
(`findall(None)` raising `TypeError` when the value is missing). -/
def resolve (consumers : List Defn) (defined : List Defn) :
    Except PyErr (List String) :=
  let names := defined.map Defn.name
  consumers.foldlM
    (fun imps d =>
      match d with
      | .cls c =>
        let i1 := scanToks names imps c.parents
        let i2 := c.variables_.foldl
          (fun im v =>
            match v.annot with
            | some a => scanToks names im (findIdents a)
            | none => im) i1
        let i3 := c.methods.foldl
          (fun im f =>
            let ima := f.arguments.foldl
              (fun im2 arg =>
                match arg.annot with
                | some a => scanToks names im2 (findIdents a)
                | none => im2) im
            match f.annot with
            | some a => scanToks names ima (findIdents a)
            | none => ima) i2
        .ok i3
      | .var v =>
        let i1 := match v.annot with
          | some a => scanToks names imps (findIdents a)
          | none => imps
        if v.annot = some "TypeAlias" then
          match v.value with
          | none => .error .typeError
          | some s => .ok (scanToks names i1 (findIdents s))
        else .ok i1)
    []

/-! ### The three output properties

Each is modelled with first-read semantics as a function of the
post-`generate` state (the Python properties additionally mutate the
generator on every read: `types_code` re-prepends the base aliases and
`server_code`/`client_code` re-append the `handle` method; no claim reads
a property twice).  Textual rendering and the import statements are the
out-of-scope Emitter; the artifacts are the ordered definitions
(`types_code`), and the dispatcher class with its resolved import list
(`server_code` / `client_code`). -/

def baseAliases : List Defn :=
  [ .var { name := "uinteger", annot := some "TypeAlias", value := some "int" },
    .var { name := "URI", annot := some "TypeAlias", value := some "str" },
    .var { name := "DocumentUri", annot := some "TypeAlias", value := some "str" },
    .var { name := "RegExp", annot := some "TypeAlias", value := some "str" } ]

def lbC : Char := Char.ofNat 123
def rbC : Char := Char.ofNat 125

/-- The body of the generated `handle` method (with the rendered
handle-map dict). -/
def handleBody (hmap : List (String × String)) : String :=
  "handle_map = " ++ String.mk [lbC] ++ String.mk [nlC, tabC]
    ++ String.intercalate ("," ++ String.mk [nlC, tabC])
      (hmap.map (fun p => pyReprStr p.1 ++ ": self." ++ p.2))
    ++ String.mk [nlC, tabC, rbC, nlC]
    ++ "return handle_map[method](params_or_result)" ++ String.mk [nlC]

def handleEntryFunction (hmap : List (String × String)) : Function :=
  { name := "handle",
    arguments := [selfArg, { name := "method", annot := some "str" },
      { name := "params_or_result", annot := some "LSPAny" }],
    annot := some "None",
    body := some (handleBody hmap) }

/-- `CodeGenerator.types_code` up to rendering: the not-generated gate,
the base aliases prepended, then the orderer's output. -/
def typesArtifact (fuel : Nat) (st : GenState) : Except PyErr (List Defn) :=
  if st.isGenerated = false then .error .notGenerated
  else orderedNames fuel (baseAliases ++ st.types)

/-- `CodeGenerator.server_code` up to rendering: the not-generated gate,
the `handle` method appended, the import list resolved against
`self._types`. -/
def serverArtifact (st : GenState) : Except PyErr (Class × List String) :=
  if st.isGenerated = false then .error .notGenerated
  else do
    let cls := addMethods st.server [handleEntryFunction st.serverHandleMap]
    let imps ← resolve [.cls cls] st.types
    .ok (cls, imps)

/-- `CodeGenerator.client_code`, symmetric to `serverArtifact`. -/
def clientArtifact (st : GenState) : Except PyErr (Class × List String) :=
  if st.isGenerated = false then .error .notGenerated
  else do
    let cls := addMethods st.client [handleEntryFunction st.clientHandleMap]
    let imps ← resolve [.cls cls] st.types
    .ok (cls, imps)

/-! ### `utils.py`: `get_default_value` / `TypedDictValue`

Python type annotations, as shapes: the atomic types of the
`atomic_types` table, parameterized `list`/`dict`, `Union` (first
argument selected), `Literal` (first argument selected), `TypedDict`
classes (name, and fields as `(key, required, type)` in declaration
order — Python iterates `get_type_hints` order, or the unordered
`__required_keys__` frozenset when `only_required` is set), and `other`
for any annotation the helper has no case for. -/

inductive PVal where
  | int (n : Int)
  | float0
  | str (s : String)
  | bool (b : Bool)
  | none_
  | list0
  | dict0
  | missing (name : String)
  | dictVal (entries : List (String × PVal))
deriving Repr

inductive PTy where
  | int
  | float
  | str
  | bool
  | noneTy
  | list (elem : PTy)
  | dict (k : PTy) (v : PTy)
  | union (first : PTy) (rest : List PTy)
  | lit (first : PVal) (rest : List PVal)
  | typedDict (name : String) (fields : List (String × Bool × PTy))
  | other (name : String)
deriving Repr

/-! `TypedDictValue._get_type_default` (with
`TypedDictValue._get_typeddict_default` as `getTDFields`).

The `atomic_types` table maps `None`/`NoneType` to `None`, but the guard
is `if val is not None`, so a `None`-typed annotation falls through every
later check and raises `ValueError`.  `Union` takes its first argument;
`Literal` returns its first argument.  A `TypedDict` annotation yields a
`MissingValue` object (not an error) unless `recursive` is set, in which
case the fields are expanded — a field named `"valueSet"` goes through
`_get_valueset_default`, whose `isinstance(items, Enum)` test is `False`
for every *class* `items`, so that path always raises `ValueError`. -/
mutual
def getTypeDefault (recursive onlyRequired : Bool) : PTy → Except PyErr PVal
  | .int => .ok (.int 0)
  | .float => .ok .float0
  | .str => .ok (.str "")
  | .bool => .ok (.bool false)
  | .noneTy => .error .valueError
  | .list _ => .ok .list0
  | .dict _ _ => .ok .dict0
  | .union f _ => getTypeDefault recursive onlyRequired f
  | .lit f _ => .ok f
  | .typedDict n fields =>
    if recursive then
      match getTDFields recursive onlyRequired fields with
      | .ok es => .ok (.dictVal es)
      | .error e => .error e
    else .ok (.missing n)
  | .other _ => .error .valueError

def getTDFields (recursive onlyRequired : Bool) :
    List (String × Bool × PTy) → Except PyErr (List (String × PVal))
  | [] => .ok []
  | (k, req, t) :: fs =>
    if onlyRequired ∧ ¬ req then getTDFields recursive onlyRequired fs
    else if k = "valueSet" then .error .valueError
    else
      match getTypeDefault recursive onlyRequired t with
      | .error e => .error e
      | .ok v =>
        match getTDFields recursive onlyRequired fs with
        | .error e => .error e
        | .ok vs => .ok ((k, v) :: vs)
end

/-- `get_default_value(typ, *, only_required, recursive)`: the top-level
annotation is a `TypedDict` class, expanded by
`_get_typeddict_default`. -/
def getDefaultValue (fields : List (String × Bool × PTy))
    (onlyRequired recursive : Bool) : Except PyErr (List (String × PVal)) :=
  getTDFields recursive onlyRequired fields


/-! ### Small helpers shared by the claim statements -/

def isOkE {ε α : Type} : Except ε α → Bool
  | .ok _ => true
  | .error _ => false

/-- All identifier tokens of a consumer `Class` in the resolver's scan
order: parent names (matched whole), then variable-annotation tokens,
then per method the argument-annotation tokens followed by the
return-annotation tokens. -/
def consumerTokens (c : Class) : List String :=
  c.parents
    ++ c.variables_.flatMap
      (fun v => match v.annot with | some a => findIdents a | none => [])
    ++ c.methods.flatMap
      (fun f =>
        f.arguments.flatMap
          (fun arg => match arg.annot with | some a => findIdents a | none => [])
        ++ (match f.annot with | some a => findIdents a | none => []))

/-! ### Lemmas: the resolver's incremental fold is first-seen
de-duplication of the filtered token stream -/

lemma dedupGo_congr (s1 s2 : List String) (hs : ∀ x, x ∈ s1 ↔ x ∈ s2) :
    ∀ l, dedupGo s1 l = dedupGo s2 l := by
  intro l
  induction l generalizing s1 s2 with
  | nil => rfl
  | cons x xs ih =>
    simp only [dedupGo]
    by_cases hx : x ∈ s1
    · rw [if_pos hx, if_pos ((hs x).mp hx)]
      exact ih s1 s2 hs
    · rw [if_neg hx, if_neg (fun h2 => hx ((hs x).mpr h2))]
      congr 1
      refine ih (x :: s1) (x :: s2) ?_
      intro y
      simp [hs y]

lemma scanToks_append (names : List String) (a b : List String)
    (imps : List String) :
    scanToks names imps (a ++ b) = scanToks names (scanToks names imps a) b :=
  List.foldl_append ..

lemma scanToks_eq (names : List String) :
    ∀ (toks imps : List String),
      scanToks names imps toks =
        imps ++ dedupGo imps (toks.filter (fun t => decide (t ∈ names))) := by
  intro toks
  induction toks with
  | nil => intro imps; simp [scanToks, dedupGo]
  | cons t ts ih =>
    intro imps
    by_cases hi : t ∈ imps
    · have hstep : scanToks names imps (t :: ts) = scanToks names imps ts := by
        simp [scanToks, List.foldl_cons, hi]
      rw [hstep, ih]
      by_cases hn : t ∈ names
      · simp [List.filter_cons, hn, dedupGo, hi]
      · simp [List.filter_cons, hn]
    · by_cases hn : t ∈ names
      · have hstep : scanToks names imps (t :: ts) =
            scanToks names (imps ++ [t]) ts := by
          simp [scanToks, List.foldl_cons, hi, hn]
        rw [hstep, ih]
        have hfil : (t :: ts).filter (fun x => decide (x ∈ names)) =
            t :: ts.filter (fun x => decide (x ∈ names)) := by
          simp [List.filter_cons, hn]
        rw [hfil]
        simp only [dedupGo, hi, if_neg, if_false]
        rw [List.append_assoc]
        simp only [List.singleton_append]
        congr 2
        refine dedupGo_congr (imps ++ [t]) (t :: imps) ?_ _
        intro y
        simp [or_comm]
      · have hstep : scanToks names imps (t :: ts) = scanToks names imps ts := by
          simp [scanToks, List.foldl_cons, hi, hn]
        rw [hstep, ih]
        simp [List.filter_cons, hn]

/-- A left fold whose step scans one item's tokens equals one scan of the
flattened token stream. -/
lemma foldl_scan_eq {α : Type} (names : List String) (tok : α → List String)
    (g : List String → α → List String)
    (hg : ∀ im x, g im x = scanToks names im (tok x)) :
    ∀ (xs : List α) (imps : List String),
      xs.foldl g imps = scanToks names imps (xs.flatMap tok) := by
  intro xs
  induction xs with
  | nil => intro imps; rfl
  | cons x xs ih =>
    intro imps
    rw [List.foldl_cons, hg, ih, List.flatMap_cons, scanToks_append]

/-- **C2 (amended), proved:** for any consumer `Class` (in particular each
dispatcher artifact), the Import Resolver returns exactly the defined
names among the consumer's scanned tokens — parent names matched whole,
and the identifier tokens (as matched by the generator's scan, hence of
length at least two) of field annotations, method argument annotations
and method return annotations — in first-seen order, de-duplicated:
complete and minimal with respect to that token stream. -/
theorem C2_resolve_amended (c : Class) (defined : List Defn) :
    resolve [.cls c] defined =
      .ok (dedupFirst ((consumerTokens c).filter
        (fun t => decide (t ∈ defined.map Defn.name)))) := by
  have hvars : ∀ im : List String,
      c.variables_.foldl
        (fun im v => match v.annot with
          | some a => scanToks (defined.map Defn.name) im (findIdents a)
          | none => im) im =
      scanToks (defined.map Defn.name) im
        (c.variables_.flatMap (fun v => match v.annot with
          | some a => findIdents a
          | none => [])) := by
    intro im
    refine foldl_scan_eq (defined.map Defn.name) _ _ ?_ c.variables_ im
    intro im2 v
    cases v.annot <;> rfl
  have hmeths : ∀ im : List String,
      c.methods.foldl
        (fun im f =>
          let ima := f.arguments.foldl
            (fun im2 arg => match arg.annot with
              | some a => scanToks (defined.map Defn.name) im2 (findIdents a)
              | none => im2) im
          match f.annot with
          | some a => scanToks (defined.map Defn.name) ima (findIdents a)
          | none => ima) im =
      scanToks (defined.map Defn.name) im
        (c.methods.flatMap (fun f =>
          f.arguments.flatMap (fun arg => match arg.annot with
            | some a => findIdents a
            | none => [])
          ++ (match f.annot with | some a => findIdents a | none => []))) := by
    intro im
    refine foldl_scan_eq (defined.map Defn.name) _ _ ?_ c.methods im
    intro im2 f
    have hargs : f.arguments.foldl
        (fun im2 arg => match arg.annot with
          | some a => scanToks (defined.map Defn.name) im2 (findIdents a)
          | none => im2) im2 =
        scanToks (defined.map Defn.name) im2
          (f.arguments.flatMap (fun arg => match arg.annot with
            | some a => findIdents a
            | none => [])) := by
      refine foldl_scan_eq (defined.map Defn.name) _ _ ?_ f.arguments im2
      intro im3 arg
      cases arg.annot <;> rfl
    cases f.annot with
    | none => simpa using hargs
    | some a =>
      simp only []
      rw [hargs, ← scanToks_append]
  have hres : resolve [.cls c] defined =
      Except.ok
        (c.methods.foldl
          (fun im f =>
            let ima := f.arguments.foldl
              (fun im2 arg => match arg.annot with
                | some a => scanToks (defined.map Defn.name) im2 (findIdents a)
                | none => im2) im
            match f.annot with
            | some a => scanToks (defined.map Defn.name) ima (findIdents a)
            | none => ima)
          (c.variables_.foldl
            (fun im v => match v.annot with
              | some a => scanToks (defined.map Defn.name) im (findIdents a)
              | none => im)
            (scanToks (defined.map Defn.name) [] c.parents))) := rfl
  rw [hres, hvars, hmeths, ← scanToks_append, ← scanToks_append, scanToks_eq,
    List.nil_append, ← List.append_assoc]
  rfl

/-- **C2, counterexample to the claim as stated:** the defined name `T`
occurs as a bare identifier token (it is the whole argument annotation) in
the consumer's method, yet the resolver omits it: the generator's
identifier scan only matches tokens of at least two characters, so the
result is not complete in the claim's sense. -/
theorem C2_counterexample :
    resolve
      [.cls { name := "C",
              methods := [{ name := "m",
                            arguments := [selfArg,
                              { name := "p", annot := some "T" }],
                            annot := some "None" }] }]
      [.var { name := "T", annot := some "TypeAlias", value := some "int" }]
      = .ok []
    ∧ specTokens "T" = ["T"]
    ∧ ("T" : String) ∈
        ([.var { name := "T", annot := some "TypeAlias", value := some "int" }] :
          List Defn).map Defn.name := by
  refine ⟨rfl, rfl, ?_⟩
  simp [Defn.name]


/-! ### C4: the parent list of a structure without `extends` -/

/-- Inversion for a successful `Except` bind. -/
lemma bind_ok_iff {ε α β : Type} (x : Except ε α) (f : α → Except ε β) (b : β) :
    (x >>= f) = .ok b ↔ ∃ a, x = .ok a ∧ f a = .ok b := by
  cases x with
  | error e => simp [Bind.bind, Except.bind]
  | ok a => simp [Bind.bind, Except.bind]

/-- **C4 (amended), proved:** a structure whose `extends` list is empty or
absent compiles to a record class whose parent list is exactly
`["TypedDict"]` — no compiled parent, but the `TypedDict` record marker
rather than an empty list. -/
theorem C4_typeddict_parent (smap : List Structure) (tp : Structure)
    (c : Class) (smap2 : List Structure)
    (he : tp.extends_ = [])
    (h : compileStructure smap tp = .ok (c, smap2)) :
    c.parents = ["TypedDict"] := by
  unfold compileStructure at h
  rw [he] at h
  simp only [List.isEmpty_nil, if_true] at h
  obtain ⟨parents, hp, h⟩ := (bind_ok_iff ..).mp h
  obtain ⟨pr, _, h⟩ := (bind_ok_iff ..).mp h
  obtain ⟨props, sm⟩ := pr
  obtain ⟨vars, _, h⟩ := (bind_ok_iff ..).mp h
  simp only [Except.ok.injEq, Prod.mk.injEq] at h hp
  obtain ⟨h1, _⟩ := h
  rw [← h1, ← hp]

/-- **C4, counterexample to the claim as stated:** a structure with empty
`extends` compiles to a parent list `["TypedDict"]`, not the empty parent
list the claim requires. -/
theorem C4_counterexample :
    (compileStructure [{ name := "S0" }] { name := "S0" }).map
        (fun p => p.1.parents) = .ok ["TypedDict"]
    ∧ (["TypedDict"] : List String) ≠ [] := ⟨rfl, by decide⟩

/-- Witness for `C4_typeddict_parent` at a concrete structure. -/
theorem C4_typeddict_parent_witness :
    ({ name := "S0" } : Structure).extends_ = []
    ∧ ({ name := "S0", parents := ["TypedDict"] } : Class).parents
        = ["TypedDict"] := by
  refine ⟨rfl, ?_⟩
  exact C4_typeddict_parent [{ name := "S0" }] { name := "S0" }
    { name := "S0", parents := ["TypedDict"] } [{ name := "S0" }] rfl rfl

/-! ### C3 / C5: mixin flattening mutates the input metamodel, and the
mutation leaks a mixin's own mixins into later consumers

`M` mixes in `N`, and `S` mixes in `M`.  The generator processes `M`
first; `properties = tp.properties or list()` aliases `M`'s own property
list, so `properties.extend(ref.properties)` appends `N`'s property to
the stored `M`.  When `S` is processed, `pull_reference` hands it the
mutated `M`, and `S`'s compiled field list picks up `N`'s property — a
second level of mixin flattening — while the input metamodel's property
lists have been changed in place. -/

def mmLeak : MetaModel :=
  { metaData := { version := "1.0" },
    structures :=
      [ { name := "M", mixins := [.reference "N"],
          properties := [{ name := "pm", type := .base "string" }] },
        { name := "S", mixins := [.reference "M"],
          properties := [{ name := "ps", type := .base "string" }] },
        { name := "N",
          properties := [{ name := "pn", type := .base "string" }] } ] }

def defnFieldNames : Defn → List String
  | .cls c => c.variables_.map (fun v => v.name)
  | .var _ => []

/-- **C3, the code evaluated at the failing input:** `S`'s compiled field
list is `ps, pm, pn` — it contains `pn`, a property of `M`'s own mixin
`N` — where one-level flattening would give `ps, pm`. -/
theorem C3_mixin_leak_eval :
    (generate mmLeak).map
        (fun st => st.types.map (fun d => (d.name, defnFieldNames d)))
      = .ok [("M", ["pm", "pn"]), ("S", ["ps", "pm", "pn"]), ("N", ["pn"])]
    ∧ (["ps", "pm", "pn"] : List String) ≠ ["ps", "pm"] := ⟨rfl, by decide⟩

/-- **C5, the code evaluated at the failing input:** after `generate`,
the input metamodel's structures have different property lists than
before: `M` and `S` were extended in place by the mixin loop. -/
theorem C5_input_mutation_eval :
    (generate mmLeak).map
        (fun st => st.structures.map
          (fun s => (s.name, s.properties.map (fun p => p.name))))
      = .ok [("M", ["pm", "pn"]), ("S", ["ps", "pm", "pn"]), ("N", ["pn"])]
    ∧ mmLeak.structures.map
        (fun s => (s.name, s.properties.map (fun p => p.name)))
      = [("M", ["pm"]), ("S", ["ps"]), ("N", ["pn"])]
    ∧ ([("M", (["pm", "pn"] : List String)), ("S", ["ps", "pm", "pn"]),
        ("N", ["pn"])] ≠ [("M", ["pm"]), ("S", ["ps"]), ("N", ["pn"])]) :=
  ⟨rfl, rfl, by decide⟩

/-! ### C9: which shapes make the default-value helper fail
(`recursive` not requested) -/

/-- The shapes on which `_get_type_default` (without recursive expansion)
raises: the bare `None`/`NoneType` annotation (its `atomic_types` entry is
`None`, so the `is not None` guard discards it), any annotation without a
handler, and a union whose selected (first) branch fails. -/
def failsNoRec : PTy → Bool
  | .noneTy => true
  | .other _ => true
  | .union f _ => failsNoRec f
  | _ => false

lemma getTypeDefault_norec_ok : ∀ (t : PTy) (oR : Bool),
    isOkE (getTypeDefault false oR t) = !failsNoRec t
  | .int, _ => rfl
  | .float, _ => rfl
  | .str, _ => rfl
  | .bool, _ => rfl
  | .noneTy, _ => rfl
  | .list _, _ => rfl
  | .dict _ _, _ => rfl
  | .lit _ _, _ => rfl
  | .typedDict _ _, _ => rfl
  | .other _, _ => rfl
  | .union f _, oR => by
    have ih := getTypeDefault_norec_ok f oR
    simp only [getTypeDefault, failsNoRec]
    exact ih

/-- **C9 (amended), proved:** with recursive expansion not requested, the
default-value helper fails exactly on the bare `None` annotation, on an
annotation it has no handler for, and on a union whose selected (first)
branch fails by the same rule; and an inline record (`TypedDict`
annotation) yields the `MissingValue` placeholder, not an error.  Every
other handled shape — non-`None` atomic scalar, list, dict, union with a
succeeding first branch, literal — returns a default value. -/
theorem C9_default_amended :
    (∀ (oR : Bool) (t : PTy),
      isOkE (getTypeDefault false oR t) = true ↔ failsNoRec t = false)
    ∧ (∀ (oR : Bool) (n : String) (fields : List (String × Bool × PTy)),
      getTypeDefault false oR (.typedDict n fields) = .ok (.missing n)) := by
  constructor
  · intro oR t
    rw [getTypeDefault_norec_ok t oR]
    cases failsNoRec t <;> simp
  · intro oR n fields
    rfl

/-- **C9, counterexample to the claim as stated:** asked for a default of
an inline record (`TypedDict`) shape without recursive expansion, the
helper does not fail — it returns a `MissingValue` object — and the
atomic scalar `None`, which the claim counts as handled, raises
`ValueError`. -/
theorem C9_counterexample :
    getTypeDefault false false (.typedDict "X" []) = .ok (.missing "X")
    ∧ isOkE (getTypeDefault false false (.typedDict "X" [])) = true
    ∧ getTypeDefault false false .noneTy = .error .valueError :=
  ⟨rfl, rfl, rfl⟩


/-! ### C6: a `Both`-direction notification populates both roles -/

/-- The sender method `notification` builds (`notify_function`). -/
def notifySender (tp : Notification) (tn pc : String) : Function :=
  { name := to_snake_case tn,
    arguments := [selfArg, { name := "params", annot := some pc }],
    annot := some "None",
    body := some ("self.notify(method=" ++ pyReprStr tp.method
      ++ ", params=params)"),
    docstring := tp.documentation }

/-- The handler stub `notification` builds
(`handle_notification_function`). -/
def notifyHandler (tn pc : String) : Function :=
  { name := "handle_" ++ to_snake_case tn,
    arguments := [selfArg, { name := "context", annot := some "dict" },
      { name := "params", annot := some pc }],
    annot := some "None" }

lemma dictInsert_fresh (m : List (String × String)) (k v : String)
    (hf : ∀ p ∈ m, p.1 ≠ k) : dictInsert m k v = m ++ [(k, v)] := by
  unfold dictInsert
  rw [if_neg]
  simp only [List.any_eq_true, not_exists, not_and]
  intro p hp
  simp [hf p hp]

lemma addMethods_addMethods (c : Class) (a b : List Function) :
    addMethods (addMethods c a) b = addMethods c (a ++ b) := by
  simp [addMethods]

/-- **C6, proved:** a notification with direction `Both` (whose `params`
compile and whose wire method is not yet in either dispatch table) adds
exactly one sender and one handler stub to each role — the client gets
`[sender, handler]`, the server `[handler, sender]`, both annotated to
return `None` — and appends exactly one entry, keyed by the wire method
string and mapping to the handler identifier, to each role's dispatch
table. -/
theorem C6_notification_both (st : GenState) (tp : Notification)
    (tn pc : String)
    (htn : tp.typeName = some tn)
    (hpc : typeCodeOpt tp.params = .ok pc)
    (hdir : tp.messageDirection = .both)
    (hks : ∀ p ∈ st.serverHandleMap, p.1 ≠ tp.method)
    (hkc : ∀ p ∈ st.clientHandleMap, p.1 ≠ tp.method) :
    notificationStep st tp = .ok { st with
      client := addMethods st.client
        [notifySender tp tn pc, notifyHandler tn pc],
      server := addMethods st.server
        [notifyHandler tn pc, notifySender tp tn pc],
      serverHandleMap := st.serverHandleMap
        ++ [(tp.method, "handle_" ++ to_snake_case tn)],
      clientHandleMap := st.clientHandleMap
        ++ [(tp.method, "handle_" ++ to_snake_case tn)] }
    ∧ (notifySender tp tn pc).annot = some "None"
    ∧ (notifyHandler tn pc).annot = some "None" := by
  refine ⟨?_, rfl, rfl⟩
  unfold notificationStep
  rw [htn, hpc, hdir]
  simp only [bind, Except.bind]
  simp only [or_true, if_true]
  rw [dictInsert_fresh _ _ _ hks]
  rw [dictInsert_fresh _ _ _ (by simpa using hkc)]
  rw [addMethods_addMethods, addMethods_addMethods]
  rfl

/-- A concrete `Both`-direction notification for the C6 witness. -/
def nWitC6 : Notification :=
  { method := "m/x", typeName := some "Ab", messageDirection := .both }

/-- Witness for `C6_notification_both` at a concrete notification. -/
theorem C6_notification_both_witness :
    notificationStep {} nWitC6
      = .ok { ({} : GenState) with
          client := addMethods ({} : GenState).client
            [notifySender nWitC6 "Ab" "None", notifyHandler "Ab" "None"],
          server := addMethods ({} : GenState).server
            [notifyHandler "Ab" "None", notifySender nWitC6 "Ab" "None"],
          serverHandleMap := [("m/x", "handle_" ++ to_snake_case "Ab")],
          clientHandleMap := [("m/x", "handle_" ++ to_snake_case "Ab")] } :=
  (C6_notification_both {} nWitC6 "Ab" "None" rfl rfl rfl (by simp) (by simp)).1


/-! ### C7: the sender / handler identifier transform

The `re.sub` scan consumes two characters per match, but a match's second
character is uppercase and so can never start another match; hence the
scan inserts a separator exactly before every uppercase character whose
predecessor is non-uppercase. -/

lemma snakeGo_cons_aux : ∀ (n : Nat) (l : List Char), l.length = n →
    ∀ d, snakeGo (d :: l) = d :: boundaryGo d l := by
  intro n
  induction n using Nat.strong_induction_on with
  | _ n ih =>
  intro l hn d
  match l, hn with
  | [], _ => rfl
  | e :: r, hn =>
    by_cases hc : (¬ isUpperAZ d && isUpperAZ e) = true
    · have h1 : snakeGo (d :: e :: r) = d :: usC :: e :: snakeGo r := by
        rw [snakeGo, if_pos hc]
      have h2 : boundaryGo d (e :: r) = usC :: e :: boundaryGo e r := by
        rw [boundaryGo, if_pos hc]
      rw [h1, h2]
      have hue : isUpperAZ e = true := by
        revert hc
        cases isUpperAZ e <;> simp
      match r, hn with
      | [], _ => rfl
      | f :: r2, hn =>
        have h3 : boundaryGo e (f :: r2) = f :: boundaryGo f r2 := by
          rw [boundaryGo, if_neg]
          simp [hue]
        rw [h3, ih r2.length (by rw [← hn]; simp only [List.length_cons]; omega) r2 rfl f]
    · have h1 : snakeGo (d :: e :: r) = d :: snakeGo (e :: r) := by
        rw [snakeGo, if_neg hc]
      have h2 : boundaryGo d (e :: r) = e :: boundaryGo e r := by
        rw [boundaryGo, if_neg hc]
      rw [h1, h2, ih r.length (by rw [← hn]; simp only [List.length_cons]; omega) r rfl e]

lemma snakeGo_cons (l : List Char) (d : Char) :
    snakeGo (d :: l) = d :: boundaryGo d l :=
  snakeGo_cons_aux l.length l rfl d

lemma to_snake_eq_amended (s : String) : to_snake_case s = snakeAmended s := by
  unfold to_snake_case snakeAmended
  cases hd : s.data with
  | nil => rfl
  | cons c l => rw [snakeGo_cons]; rfl

/-- The sender method `request` builds (`request_function`). -/
def requestSender (tp : Request) (tn pc : String) : Function :=
  { name := to_snake_case tn,
    arguments := [selfArg, { name := "params", annot := some pc }],
    annot := some "None",
    body := some ("self.request(method=" ++ pyReprStr tp.method
      ++ ", params=params)"),
    docstring := tp.documentation }

/-- The result-handler stub `request` builds
(`handle_result_function`). -/
def requestResultHandler (tn rc : String) : Function :=
  { name := "handle_" ++ to_snake_case tn,
    arguments := [selfArg, { name := "context", annot := some "dict" },
      { name := "result", annot := some rc }],
    annot := some "None" }

/-- The request-handler stub `request` builds
(`handle_request_function`). -/
def requestHandler (tn pc rc : String) : Function :=
  { name := "handle_" ++ to_snake_case tn,
    arguments := [selfArg, { name := "context", annot := some "dict" },
      { name := "params", annot := some pc }],
    annot := some rc }

/-- A concrete notification whose type name has a digit before an
uppercase letter. -/
def nC7 : Notification :=
  { method := "n/a1", typeName := some "A1B",
    messageDirection := .clientToServer }

/-- **C7, counterexample to the claim as stated:** for the notification
with declared type name `A1B`, the generated sender identifier is `a1_b`
(the regex inserts a separator at the `1`→`B` boundary, and `1` is not a
lowercase letter) and the handler identifier is `handle_a1_b`; the
claim's transform — separators only at lowercase→uppercase boundaries —
gives `a1b` instead. -/
theorem C7_counterexample :
    (notificationStep {} nC7).map
        (fun st => st.client.methods.map (fun f => f.name)) = .ok ["a1_b"]
    ∧ (notificationStep {} nC7).map
        (fun st => st.server.methods.map (fun f => f.name))
        = .ok ["handle_a1_b"]
    ∧ snakeClaim "A1B" = "a1b"
    ∧ ("a1_b" : String) ≠ "a1b" := ⟨rfl, rfl, rfl, by decide⟩

/-- The property every method added by the message compiler satisfies:
senders (methods with a body) are named by the transform, handler stubs
(no body) by `handle_` + the transform. -/
def namedByTransform (old : List Function) (tn : String) (f : Function) :
    Prop :=
  f ∈ old ∨ (f.body ≠ none ∧ f.name = snakeAmended tn)
    ∨ (f.body = none ∧ f.name = "handle_" ++ snakeAmended tn)

lemma addMethods_namedBy (c : Class) (fs : List Function) (tn : String)
    (hfs : ∀ f ∈ fs, (f.body ≠ none ∧ f.name = snakeAmended tn)
      ∨ (f.body = none ∧ f.name = "handle_" ++ snakeAmended tn)) :
    ∀ f ∈ (addMethods c fs).methods, namedByTransform c.methods tn f := by
  intro f hf
  simp only [addMethods, List.mem_append] at hf
  rcases hf with hf | hf
  · exact Or.inl hf
  · exact Or.inr (hfs f hf)

lemma addMethods_namedBy2 (c : Class) (fs gs : List Function) (tn : String)
    (hfs : ∀ f ∈ fs, (f.body ≠ none ∧ f.name = snakeAmended tn)
      ∨ (f.body = none ∧ f.name = "handle_" ++ snakeAmended tn))
    (hgs : ∀ f ∈ gs, (f.body ≠ none ∧ f.name = snakeAmended tn)
      ∨ (f.body = none ∧ f.name = "handle_" ++ snakeAmended tn)) :
    ∀ f ∈ (addMethods (addMethods c fs) gs).methods,
      namedByTransform c.methods tn f := by
  intro f hf
  rcases addMethods_namedBy (addMethods c fs) gs tn hgs f hf with hf2 | hf2
  · exact addMethods_namedBy c fs tn hfs f hf2
  · exact Or.inr hf2

lemma notifySender_namedBy (tp : Notification) (tn pc : String) :
    ∀ f ∈ [notifySender tp tn pc],
      (f.body ≠ none ∧ f.name = snakeAmended tn)
      ∨ (f.body = none ∧ f.name = "handle_" ++ snakeAmended tn) := by
  intro f hf
  simp only [List.mem_singleton] at hf
  subst hf
  exact Or.inl ⟨by simp [notifySender], by
    simp [notifySender, to_snake_eq_amended tn]⟩

lemma notifyHandler_namedBy (tn pc : String) :
    ∀ f ∈ [notifyHandler tn pc],
      (f.body ≠ none ∧ f.name = snakeAmended tn)
      ∨ (f.body = none ∧ f.name = "handle_" ++ snakeAmended tn) := by
  intro f hf
  simp only [List.mem_singleton] at hf
  subst hf
  exact Or.inr ⟨rfl, by simp [notifyHandler, to_snake_eq_amended tn]⟩

lemma requestSenderPair_namedBy (tp : Request) (tn pc rc : String) :
    ∀ f ∈ [requestSender tp tn pc, requestResultHandler tn rc],
      (f.body ≠ none ∧ f.name = snakeAmended tn)
      ∨ (f.body = none ∧ f.name = "handle_" ++ snakeAmended tn) := by
  intro f hf
  simp only [List.mem_cons, List.not_mem_nil, or_false] at hf
  rcases hf with hf | hf <;> subst hf
  · exact Or.inl ⟨by simp [requestSender], by
      simp [requestSender, to_snake_eq_amended tn]⟩
  · exact Or.inr ⟨rfl, by
      simp [requestResultHandler, to_snake_eq_amended tn]⟩

lemma requestHandler_namedBy (tn pc rc : String) :
    ∀ f ∈ [requestHandler tn pc rc],
      (f.body ≠ none ∧ f.name = snakeAmended tn)
      ∨ (f.body = none ∧ f.name = "handle_" ++ snakeAmended tn) := by
  intro f hf
  simp only [List.mem_singleton] at hf
  subst hf
  exact Or.inr ⟨rfl, by simp [requestHandler, to_snake_eq_amended tn]⟩

/-- **C7 (amended), proved:** `to_snake_case` computes exactly the
amended transform — a separator inserted at each
non-uppercase→uppercase boundary of the declared type name, then
lowercased — and every method the message compiler adds to either role
is named by it: the sender methods (the ones with a body) bear exactly
the transformed name, the handler stubs (no body) bear exactly
`handle_` followed by it. -/
theorem C7_snake_amended :
    (∀ s : String, to_snake_case s = snakeAmended s)
    ∧ (∀ (st st2 : GenState) (tp : Notification) (tn : String),
        tp.typeName = some tn →
        notificationStep st tp = .ok st2 →
        (∀ f ∈ st2.client.methods, namedByTransform st.client.methods tn f)
        ∧ (∀ f ∈ st2.server.methods, namedByTransform st.server.methods tn f))
    ∧ (∀ (st st2 : GenState) (tp : Request) (tn : String),
        tp.typeName = some tn →
        requestStep st tp = .ok st2 →
        (∀ f ∈ st2.client.methods, namedByTransform st.client.methods tn f)
        ∧ (∀ f ∈ st2.server.methods, namedByTransform st.server.methods tn f)) := by
  refine ⟨to_snake_eq_amended, ?_, ?_⟩
  · intro st st2 tp tn htn h
    cases hpc : typeCodeOpt tp.params with
    | error e =>
      unfold notificationStep at h
      rw [htn, hpc] at h
      simp [bind, Except.bind] at h
    | ok pc =>
      cases hdir : tp.messageDirection <;>
      · unfold notificationStep at h
        rw [htn, hpc, hdir] at h
        simp only [bind, Except.bind, reduceCtorEq, or_self, or_false,
          false_or, or_true, if_true, if_false, reduceIte,
          Except.ok.injEq] at h
        subst h
        first
        | exact ⟨addMethods_namedBy _ _ tn (notifySender_namedBy tp tn pc),
            addMethods_namedBy _ _ tn (notifyHandler_namedBy tn pc)⟩
        | exact ⟨addMethods_namedBy _ _ tn (notifyHandler_namedBy tn pc),
            addMethods_namedBy _ _ tn (notifySender_namedBy tp tn pc)⟩
        | exact ⟨addMethods_namedBy2 _ _ _ tn (notifySender_namedBy tp tn pc)
              (notifyHandler_namedBy tn pc),
            addMethods_namedBy2 _ _ _ tn (notifyHandler_namedBy tn pc)
              (notifySender_namedBy tp tn pc)⟩
  · intro st st2 tp tn htn h
    cases hpc : typeCodeOpt tp.params with
    | error e =>
      unfold requestStep at h
      rw [htn, hpc] at h
      simp [bind, Except.bind] at h
    | ok pc =>
      cases hrc : typeCode tp.result with
      | error e =>
        unfold requestStep at h
        rw [htn, hpc, hrc] at h
        simp [bind, Except.bind] at h
      | ok rc =>
        cases hdir : tp.messageDirection <;>
        · unfold requestStep at h
          rw [htn, hpc, hrc, hdir] at h
          simp only [bind, Except.bind, reduceCtorEq, or_self, or_false,
            false_or, or_true, if_true, if_false, reduceIte,
            Except.ok.injEq] at h
          subst h
          first
          | exact ⟨addMethods_namedBy _ _ tn
                (requestSenderPair_namedBy tp tn pc rc),
              addMethods_namedBy _ _ tn (requestHandler_namedBy tn pc rc)⟩
          | exact ⟨addMethods_namedBy _ _ tn (requestHandler_namedBy tn pc rc),
              addMethods_namedBy _ _ tn (requestSenderPair_namedBy tp tn pc rc)⟩
          | exact ⟨addMethods_namedBy2 _ _ _ tn
                (requestSenderPair_namedBy tp tn pc rc)
                (requestHandler_namedBy tn pc rc),
              addMethods_namedBy2 _ _ _ tn (requestHandler_namedBy tn pc rc)
                (requestSenderPair_namedBy tp tn pc rc)⟩

/-- Witness for `C7_snake_amended`: the sender generated for the `A1B`
notification is named by the amended transform. -/
theorem C7_snake_amended_witness :
    namedByTransform ({} : GenState).client.methods "A1B"
      (notifySender nC7 "A1B" "None") :=
  (C7_snake_amended.2.1 {}
    { server := { name := "Server", methods := [notifyHandler "A1B" "None"] },
      serverHandleMap := [("n/a1", "handle_a1_b")],
      client := { name := "Client",
                  methods := [notifySender nC7 "A1B" "None"] } }
    nC7 "A1B" rfl rfl).1 (notifySender nC7 "A1B" "None") (by simp)


/-! ### C8: enumeration values round-trip through `repr` byte-for-byte

`pyReprStr`/`pyDecimal` are the emit direction (`f"{val.value!r}"`);
`parsePyLit` is Python's reading of the emitted literal.  The lemmas here
prove the round-trip is the identity, so the generator re-encodes no
value and normalizes no case. -/

lemma toNat_charOfNat (k : Nat) (h : Nat.isValidChar k) :
    (Char.ofNat k).toNat = k := by
  unfold Char.ofNat
  rw [dif_pos h]
  rfl

lemma charOfNat_toNat (c : Char) : Char.ofNat c.toNat = c := by
  have hv : Nat.isValidChar c.toNat := c.valid
  unfold Char.ofNat
  rw [dif_pos hv]
  apply Char.eq_of_val_eq
  apply UInt32.eq_of_toBitVec_eq
  apply BitVec.eq_of_toNat_eq
  rfl

lemma hexVal_hexDigitChar (k : Nat) (hk : k < 16) :
    hexVal (hexDigitChar k) = some k := by
  interval_cases k <;> decide

lemma pyQuote_cases (s : String) : pyQuote s = sqC ∨ pyQuote s = dqC := by
  unfold pyQuote
  split
  · exact Or.inr rfl
  · exact Or.inl rfl

lemma parseBody_cons (q c : Char) (t : List Char) :
    parseBody q (c :: t) =
      if c = q then (if t.isEmpty then some [] else none)
      else if c = bsC then
        (match t with
         | [] => none
         | e :: rest2 =>
           if e = 'x' then
             match rest2 with
             | h1 :: h2 :: rest3 =>
               match hexVal h1, hexVal h2, parseBody q rest3 with
               | some a, some b, some tl =>
                 some (Char.ofNat (16 * a + b) :: tl)
               | _, _, _ => none
             | _ => none
           else
             match unescapeChar e, parseBody q rest2 with
             | some d, some tl => some (d :: tl)
             | _, _ => none)
      else
        match parseBody q t with
        | some tl => some (c :: tl)
        | none => none := by
  rw [parseBody.eq_def]

lemma parseBody_cons_plain (q c : Char) (t : List Char)
    (h1 : ¬(c = q)) (h2 : ¬(c = bsC)) :
    parseBody q (c :: t) = (parseBody q t).map (c :: ·) := by
  rw [parseBody_cons, if_neg h1, if_neg h2]
  cases parseBody q t <;> rfl

lemma parseBody_cons_esc (q e : Char) (t : List Char)
    (hbq : ¬(bsC = q)) (hex : ¬(e = 'x'))
    (d : Char) (hu : unescapeChar e = some d) :
    parseBody q (bsC :: e :: t) = (parseBody q t).map (d :: ·) := by
  rw [parseBody_cons, if_neg hbq, if_pos rfl]
  simp only [if_neg hex, hu]
  cases parseBody q t <;> rfl

lemma parseBody_cons_hex (q h1 h2 : Char) (t : List Char)
    (hbq : ¬(bsC = q)) (a b : Nat)
    (ha : hexVal h1 = some a) (hb : hexVal h2 = some b) :
    parseBody q (bsC :: 'x' :: h1 :: h2 :: t)
      = (parseBody q t).map (Char.ofNat (16 * a + b) :: ·) := by
  rw [parseBody_cons, if_neg hbq, if_pos rfl]
  simp only [if_pos rfl, ha, hb]
  cases parseBody q t <;> rfl

lemma parseBody_quote_end (q : Char) : parseBody q [q] = some [] := by
  rw [parseBody_cons, if_pos rfl]
  rfl

lemma parseBody_escape (q c : Char) (hq : q = sqC ∨ q = dqC)
    (t : List Char) :
    parseBody q (escapeChar q c ++ t) = (parseBody q t).map (c :: ·) := by
  have hbq : ¬(bsC = q) := by rcases hq with rfl | rfl <;> decide
  unfold escapeChar
  by_cases h1 : c = bsC
  · subst h1
    rw [if_pos rfl]
    exact parseBody_cons_esc q bsC t hbq (by decide) bsC rfl
  · rw [if_neg h1]
    by_cases h2 : c = q
    · subst h2
      rw [if_pos rfl]
      refine parseBody_cons_esc c c t hbq ?_ c ?_
      · rcases hq with rfl | rfl <;> decide
      · rcases hq with rfl | rfl <;> decide
    · rw [if_neg h2]
      by_cases h3 : c = tabC
      · subst h3
        rw [if_pos rfl]
        exact parseBody_cons_esc q 't' t hbq (by decide) tabC rfl
      · rw [if_neg h3]
        by_cases h4 : c = nlC
        · subst h4
          rw [if_pos rfl]
          exact parseBody_cons_esc q 'n' t hbq (by decide) nlC rfl
        · rw [if_neg h4]
          by_cases h5 : c = crC
          · subst h5
            rw [if_pos rfl]
            exact parseBody_cons_esc q 'r' t hbq (by decide) crC rfl
          · rw [if_neg h5]
            by_cases h6 : c.toNat < 32 ∨ c = delC
            · rw [if_pos h6]
              have hlt : c.toNat < 128 := by
                rcases h6 with h6 | h6
                · omega
                · subst h6; decide
              have hres := parseBody_cons_hex q
                (hexDigitChar (c.toNat / 16)) (hexDigitChar (c.toNat % 16)) t
                hbq (c.toNat / 16) (c.toNat % 16)
                (hexVal_hexDigitChar _ (by omega))
                (hexVal_hexDigitChar _ (by omega))
              have hc : Char.ofNat (16 * (c.toNat / 16) + c.toNat % 16)
                  = c := by
                rw [Nat.div_add_mod]
                exact charOfNat_toNat c
              rw [hc] at hres
              exact hres
            · rw [if_neg h6]
              exact parseBody_cons_plain q c t h2 h1

lemma parseBody_flat (q : Char) (hq : q = sqC ∨ q = dqC) :
    ∀ l : List Char,
      parseBody q (l.flatMap (escapeChar q) ++ [q]) = some l := by
  intro l
  induction l with
  | nil =>
    rw [List.flatMap_nil, List.nil_append]
    exact parseBody_quote_end q
  | cons c l ih =>
    rw [List.flatMap_cons, List.append_assoc, parseBody_escape q c hq, ih]
    rfl

lemma parsePyStrLit_pyReprStr (s : String) :
    parsePyStrLit (pyReprStr s) = some s := by
  show (if pyQuote s = sqC ∨ pyQuote s = dqC then
      (parseBody (pyQuote s)
        (s.data.flatMap (escapeChar (pyQuote s)) ++ [pyQuote s])).map String.mk
    else none) = some s
  rw [if_pos (pyQuote_cases s), parseBody_flat (pyQuote s) (pyQuote_cases s)]
  rfl

lemma digitVal_digitChar (k : Nat) (hk : k < 10) :
    digitVal (Char.ofNat (48 + k)) = some k := by
  interval_cases k <;> decide

lemma parseNatGo_append (l1 l2 : List Char) :
    ∀ acc, parseNatGo acc (l1 ++ l2) =
      match parseNatGo acc l1 with
      | some a => parseNatGo a l2
      | none => none := by
  induction l1 with
  | nil => intro acc; rfl
  | cons c l1 ih =>
    intro acc
    simp only [List.cons_append, parseNatGo]
    cases digitVal c with
    | none => rfl
    | some d => exact ih _

lemma natToDigits_parse : ∀ (fuel n : Nat), n < fuel → ∀ acc,
    parseNatGo acc (natToDigits fuel n) =
      some (acc * 10 ^ (natToDigits fuel n).length + n) := by
  intro fuel
  induction fuel with
  | zero => intro n hn; omega
  | succ f ih =>
    intro n hn acc
    by_cases h10 : n < 10
    · have hd : digitVal (Char.ofNat (48 + n)) = some n :=
        digitVal_digitChar n h10
      simp only [natToDigits, if_pos h10, parseNatGo, hd, List.length_cons,
        List.length_nil, pow_one, Nat.zero_add, pow_succ, pow_zero,
        Nat.one_mul]
    · have hrec : n / 10 < f := by omega
      have hd2 : digitVal (Char.ofNat (48 + n % 10)) = some (n % 10) :=
        digitVal_digitChar _ (by omega)
      simp only [natToDigits, if_neg h10]
      rw [parseNatGo_append, ih (n / 10) hrec acc]
      simp only [parseNatGo, hd2, List.length_append, List.length_cons,
        List.length_nil]
      congr 1
      have hmod := Nat.div_add_mod n 10
      have hr : (acc * 10 ^ (natToDigits f (n / 10)).length + n / 10) * 10
          + n % 10
          = acc * 10 ^ ((natToDigits f (n / 10)).length + (0 + 1))
          + (10 * (n / 10) + n % 10) := by ring
      rw [hr, hmod]

lemma natToDigits_digitRange : ∀ (fuel n : Nat), ∀ c ∈ natToDigits fuel n,
    48 ≤ c.toNat ∧ c.toNat ≤ 57 := by
  intro fuel
  induction fuel with
  | zero => intro n c hc; simp [natToDigits] at hc
  | succ f ih =>
    intro n c hc
    by_cases h10 : n < 10
    · simp only [natToDigits, if_pos h10, List.mem_singleton] at hc
      subst hc
      rw [toNat_charOfNat _ (Or.inl (by omega))]
      omega
    · simp only [natToDigits, if_neg h10, List.mem_append,
        List.mem_singleton] at hc
      rcases hc with hc | hc
      · exact ih (n / 10) c hc
      · subst hc
        have hm : n % 10 < 10 := by omega
        rw [toNat_charOfNat _ (Or.inl (by omega))]
        omega

lemma natToDigits_ne_nil (n : Nat) : natToDigits (n + 1) n ≠ [] := by
  by_cases h10 : n < 10 <;> simp [natToDigits, h10]

lemma parseNatLit_digits (n : Nat) :
    parseNatLit (natToDigits (n + 1) n) = some n := by
  have hne := natToDigits_ne_nil n
  cases hd : natToDigits (n + 1) n with
  | nil => exact absurd hd hne
  | cons c cs =>
    have h1 : parseNatLit (c :: cs) = parseNatGo 0 (c :: cs) := rfl
    rw [h1, ← hd, natToDigits_parse (n + 1) n (by omega) 0]
    simp

lemma parseIntLit_mk_neg (l : List Char) :
    parseIntLit (String.mk ('-' :: l))
      = (parseNatLit l).map (fun k => -(k : Int)) := by
  show (if ('-' : Char) = '-' then (parseNatLit l).map (fun k => -(k : Int))
    else (parseNatLit ('-' :: l)).map (fun k => (k : Int)))
    = (parseNatLit l).map (fun k => -(k : Int))
  rw [if_pos rfl]

lemma parseIntLit_mk_pos (c : Char) (l : List Char) (h : ¬(c = '-')) :
    parseIntLit (String.mk (c :: l))
      = (parseNatLit (c :: l)).map (fun k => (k : Int)) := by
  show (if c = '-' then (parseNatLit l).map (fun k => -(k : Int))
    else (parseNatLit (c :: l)).map (fun k => (k : Int)))
    = (parseNatLit (c :: l)).map (fun k => (k : Int))
  rw [if_neg h]

lemma parseIntLit_pyDecimal (n : Int) :
    parseIntLit (pyDecimal n) = some n := by
  rcases lt_or_ge n 0 with hn | hn
  · unfold pyDecimal
    rw [if_pos hn, parseIntLit_mk_neg, parseNatLit_digits]
    show some (-(n.natAbs : Int)) = some n
    congr 1
    omega
  · unfold pyDecimal
    rw [if_neg (by omega)]
    cases hd : natToDigits (n.natAbs + 1) n.natAbs with
    | nil => exact absurd hd (natToDigits_ne_nil _)
    | cons c cs =>
      have hc48 : 48 ≤ c.toNat :=
        (natToDigits_digitRange _ _ c
          (by rw [hd]; exact List.mem_cons_self ..)).1
      have hcm : ¬(c = '-') := by
        intro h
        subst h
        revert hc48
        decide
      rw [parseIntLit_mk_pos c cs hcm, ← hd, parseNatLit_digits]
      show some ((n.natAbs : Int)) = some n
      congr 1
      omega

lemma parsePyLit_mk (c : Char) (l : List Char) :
    parsePyLit (String.mk (c :: l)) =
      if c = sqC ∨ c = dqC then
        (parsePyStrLit (String.mk (c :: l))).map .s
      else (parseIntLit (String.mk (c :: l))).map .n := rfl

lemma parsePyLit_pyReprVal (v : EnumVal) :
    parsePyLit (pyReprVal v) = some v := by
  cases v with
  | s str =>
    have hmk : pyReprStr str
        = String.mk (pyQuote str ::
            (str.data.flatMap (escapeChar (pyQuote str)) ++ [pyQuote str])) :=
      rfl
    show parsePyLit (pyReprStr str) = some (EnumVal.s str)
    rw [hmk, parsePyLit_mk, if_pos (pyQuote_cases str), ← hmk,
      parsePyStrLit_pyReprStr]
    rfl
  | n k =>
    show parsePyLit (pyDecimal k) = some (EnumVal.n k)
    rcases lt_or_ge k 0 with hk | hk
    · have hm : pyDecimal k
          = String.mk ('-' :: natToDigits (k.natAbs + 1) k.natAbs) := by
        unfold pyDecimal
        rw [if_pos hk]
      rw [hm, parsePyLit_mk, if_neg (by decide), ← hm,
        parseIntLit_pyDecimal]
      rfl
    · have hm : pyDecimal k
          = String.mk (natToDigits (k.natAbs + 1) k.natAbs) := by
        unfold pyDecimal
        rw [if_neg (by omega)]
      cases hd : natToDigits (k.natAbs + 1) k.natAbs with
      | nil => exact absurd hd (natToDigits_ne_nil _)
      | cons c cs =>
        have hc48 : 48 ≤ c.toNat :=
          (natToDigits_digitRange _ _ c
            (by rw [hd]; exact List.mem_cons_self ..)).1
        have hc57 : c.toNat ≤ 57 :=
          (natToDigits_digitRange _ _ c
            (by rw [hd]; exact List.mem_cons_self ..)).2
        have hq : ¬(c = sqC ∨ c = dqC) := by
          intro h
          rcases h with h | h <;> (subst h; revert hc48 hc57; decide)
        rw [hm, hd, parsePyLit_mk, if_neg hq, ← hd, ← hm,
          parseIntLit_pyDecimal]
        rfl

/-- **C8, proved:** a compiled enumeration lists its entries in declared
order, each entry's value rendered with `repr`; and reading the rendered
literal back (Python's own literal semantics) returns exactly the
original value — byte-for-byte round-trip, no re-encoding, no case
normalization. -/
theorem C8_enumeration_roundtrip :
    (∀ (e : Enumeration) (c : Class), compileEnumeration e = .ok c →
      c.variables_ = e.values.map
        (fun v => { name := v.name, value := some (pyReprVal v.value) }))
    ∧ (∀ v : EnumVal, parsePyLit (pyReprVal v) = some v) := by
  constructor
  · intro e c h
    unfold compileEnumeration at h
    obtain ⟨t, _, h⟩ := (bind_ok_iff ..).mp h
    rw [Except.ok.injEq] at h
    rw [← h]
  · exact parsePyLit_pyReprVal

/-- The spec's `{name:"Escape", value:"\u001b"}` example. -/
def escStr : String := String.mk [Char.ofNat 27]

def eEsc : Enumeration :=
  { name := "K", type := .base "string",
    values := [{ name := "Escape", value := .s escStr }] }

/-- Witness for `C8_enumeration_roundtrip` at the Escape entry. -/
theorem C8_enumeration_roundtrip_witness :
    ({ name := "K",
       variables_ := [{ name := "Escape",
                        value := some (pyReprVal (.s escStr)) }],
       parents := ["str", "Enum"] } : Class).variables_
      = eEsc.values.map
          (fun v => { name := v.name, value := some (pyReprVal v.value) })
    ∧ parsePyLit (pyReprVal (.s escStr)) = some (.s escStr) :=
  ⟨C8_enumeration_roundtrip.1 eEsc _ rfl,
    C8_enumeration_roundtrip.2 (.s escStr)⟩


/-! ### C10: the not-generated gate, and availability after `generate`

Before `generate()` completes, all three output properties raise the
`code not generated yet` exception.  After it, the two dispatcher
artifacts are always available, but the types artifact still runs the
orderer, whose parents loop has no `RecursionError` handler: a cyclic
`extends` chain overflows the recursion limit and escapes, so the types
artifact is only available when the orderer's placement terminates. -/

lemma generate_isGenerated (m : MetaModel) (st : GenState)
    (h : generate m = .ok st) : st.isGenerated = true := by
  unfold generate at h
  obtain ⟨enums, _, h⟩ := (bind_ok_iff ..).mp h
  obtain ⟨pr, _, h⟩ := (bind_ok_iff ..).mp h
  obtain ⟨structDefs, smap⟩ := pr
  obtain ⟨aliases, _, h⟩ := (bind_ok_iff ..).mp h
  obtain ⟨st2, _, h⟩ := (bind_ok_iff ..).mp h
  obtain ⟨st3, _, h⟩ := (bind_ok_iff ..).mp h
  rw [Except.ok.injEq] at h
  rw [← h]

lemma resolve_cls_ok (c : Class) (d : List Defn) :
    ∃ l, resolve [.cls c] d = .ok l := ⟨_, rfl⟩

/-- The cyclic-`extends` metamodel: `A extends B`, `B extends A`. -/
def cycMM : MetaModel :=
  { metaData := { version := "1.0" },
    structures :=
      [ { name := "A", extends_ := [.reference "B"] },
        { name := "B", extends_ := [.reference "A"] } ] }

def cycA : Class := { name := "A", parents := ["B"] }

def cycB : Class := { name := "B", parents := ["A"] }

/-- The orderer's input for `cycMM`'s types artifact. -/
def cycNames : List Defn := baseAliases ++ [.cls cycA, .cls cycB]

lemma cyc_defineName_err : ∀ (f : Nat) (st : OrdererState),
    "A" ∉ st.defined → "B" ∉ st.defined →
    defineName f cycNames (.cls cycA) st = .error .recursionError
    ∧ defineName f cycNames (.cls cycB) st = .error .recursionError := by
  intro f
  induction f with
  | zero => intro st _ _; exact ⟨rfl, rfl⟩
  | succ f ih =>
    intro st hA hB
    constructor
    · have hp : parentsLoop (defineName f cycNames) cycNames ["B"] st
          = .error .recursionError := by
        have h:= (ih st hA hB).2
        simp only [parentsLoop, if_neg hB,
          show nmLookup cycNames "B" = some (.cls cycB) from rfl, h]
      simp only [defineName, cycA, hp]
    · have hp : parentsLoop (defineName f cycNames) cycNames ["A"] st
          = .error .recursionError := by
        have h := (ih st hA hB).1
        simp only [parentsLoop, if_neg hA,
          show nmLookup cycNames "A" = some (.cls cycA) from rfl, h]
      simp only [defineName, cycB, hp]

lemma tokensLoop_skip (rec9 : Defn → OrdererState → Except PyErr OrdererState)
    (names : List Defn) :
    ∀ (ts : List String) (st : OrdererState),
      (∀ t ∈ ts, nmLookup names t = none ∨ t ∈ st.defined) →
      tokensLoop rec9 names ts st = .ok st := by
  intro ts
  induction ts with
  | nil => intro st _; rfl
  | cons t ts ih =>
    intro st hts
    by_cases hmem : t ∈ st.defined
    · simp only [tokensLoop, if_pos hmem]
      exact ih st (fun u hu => hts u (List.mem_cons_of_mem t hu))
    · rcases hts t (List.mem_cons_self ..) with hl | hl
      · simp only [tokensLoop, if_neg hmem, hl]
        exact ih st (fun u hu => hts u (List.mem_cons_of_mem t hu))
      · exact absurd hl hmem

lemma defineName_var_skip (f : Nat) (names : List Defn) (v : Variable)
    (s : String) (st : OrdererState)
    (ha : v.annot = some "TypeAlias") (hv : v.value = some s)
    (hts : ∀ t ∈ findIdents s, nmLookup names t = none ∨ t ∈ st.defined) :
    defineName (f + 1) names (.var v) st
      = .ok { st with defined := st.defined ++ [v.name] } := by
  simp only [defineName, ha, hv,
    tokensLoop_skip (defineName f names) names (findIdents s) st hts]
  rfl

def aliasU : Defn :=
  .var { name := "uinteger", annot := some "TypeAlias", value := some "int" }

def aliasURI : Defn :=
  .var { name := "URI", annot := some "TypeAlias", value := some "str" }

def aliasDoc : Defn :=
  .var { name := "DocumentUri", annot := some "TypeAlias", value := some "str" }

def aliasRE : Defn :=
  .var { name := "RegExp", annot := some "TypeAlias", value := some "str" }

lemma cyc_runDefine_err : ∀ fuel,
    runDefine fuel cycNames = .error .recursionError := by
  intro fuel
  cases fuel with
  | zero => rfl
  | succ f =>
    unfold runDefine
    have h1 : defineName (f + 1) cycNames aliasU ⟨[], false⟩
        = .ok ⟨["uinteger"], false⟩ :=
      defineName_var_skip f cycNames _ "int" _ rfl rfl (by decide)
    have h2 : defineName (f + 1) cycNames aliasURI ⟨["uinteger"], false⟩
        = .ok ⟨["uinteger", "URI"], false⟩ :=
      defineName_var_skip f cycNames _ "str" _ rfl rfl (by decide)
    have h3 : defineName (f + 1) cycNames aliasDoc ⟨["uinteger", "URI"], false⟩
        = .ok ⟨["uinteger", "URI", "DocumentUri"], false⟩ :=
      defineName_var_skip f cycNames _ "str" _ rfl rfl (by decide)
    have h4 : defineName (f + 1) cycNames aliasRE
        ⟨["uinteger", "URI", "DocumentUri"], false⟩
        = .ok ⟨["uinteger", "URI", "DocumentUri", "RegExp"], false⟩ :=
      defineName_var_skip f cycNames _ "str" _ rfl rfl (by decide)
    have h5 := (cyc_defineName_err (f + 1)
      ⟨["uinteger", "URI", "DocumentUri", "RegExp"], false⟩
      (by decide) (by decide)).1
    show List.foldlM _ _ _ = _
    rw [show cycNames = aliasU :: aliasURI :: aliasDoc :: aliasRE
        :: Defn.cls cycA :: [Defn.cls cycB] from rfl]
    simp only [List.foldlM_cons, List.foldlM_nil, bind, Except.bind]
    rw [show aliasU :: aliasURI :: aliasDoc :: aliasRE
        :: Defn.cls cycA :: [Defn.cls cycB] = cycNames from rfl]
    simp only [h1, h2, h3, h4, h5]

lemma bind_ok {e a b : Type} (x : Except e a) (f : a → Except e b) (v : a)
    (h : x = .ok v) : (x >>= f) = f v := by
  rw [h]
  rfl

/-- The state `generate` produces for `cycMM`. -/
def cycStGen : GenState :=
  { types := [.cls cycA, .cls cycB], structures := cycMM.structures,
    isGenerated := true }

/-- **C10, counterexample to the claim as stated:** after one successful
`generate()` on the cyclic-`extends` metamodel, reading the types
artifact raises `RecursionError` for any recursion limit — it is not
available — because the orderer's parents loop has no handler for the
cycle. -/
theorem C10_counterexample :
    (do
      let st ← generate cycMM
      typesArtifact 1000 st) = .error .recursionError := by
  have hg : generate cycMM = .ok cycStGen := rfl
  rw [bind_ok _ _ _ hg]
  have h2 : typesArtifact 1000 cycStGen
      = orderedNames 1000 (baseAliases ++ cycStGen.types) := by
    unfold typesArtifact
    rw [if_neg (show ¬(cycStGen.isGenerated = false) by decide)]
  have h3 : (baseAliases ++ cycStGen.types) = cycNames := rfl
  have h4 : orderedNames 1000 cycNames = .error .recursionError := by
    unfold orderedNames orderedKeys
    rw [cyc_runDefine_err 1000]
    rfl
  show typesArtifact 1000 cycStGen = .error .recursionError
  rw [h2, h3, h4]

/-- **C10 (amended), proved:** before `generate()` completes, each of the
three output properties raises the `code not generated yet` exception;
after one `generate()` call the two dispatcher artifacts are available,
and the types artifact is exactly the dependency orderer's output on the
base aliases followed by the generated definitions — available precisely
when the orderer's recursive placement terminates within the recursion
limit. -/
theorem C10_gating_amended (m : MetaModel) (fuel : Nat) :
    typesArtifact fuel (initState m) = .error .notGenerated
    ∧ serverArtifact (initState m) = .error .notGenerated
    ∧ clientArtifact (initState m) = .error .notGenerated
    ∧ ∀ st, generate m = .ok st →
        st.isGenerated = true
        ∧ (∃ r, serverArtifact st = .ok r)
        ∧ (∃ r, clientArtifact st = .ok r)
        ∧ typesArtifact fuel st = orderedNames fuel (baseAliases ++ st.types) := by
  refine ⟨rfl, rfl, rfl, ?_⟩
  intro st hst
  have hg := generate_isGenerated m st hst
  refine ⟨hg, ?_, ?_, ?_⟩
  · obtain ⟨l, hl⟩ := resolve_cls_ok
      (addMethods st.server [handleEntryFunction st.serverHandleMap]) st.types
    refine ⟨(addMethods st.server [handleEntryFunction st.serverHandleMap], l), ?_⟩
    unfold serverArtifact
    rw [hg]
    simp only [Bool.true_eq_false, if_false, reduceIte]
    rw [hl]
    rfl
  · obtain ⟨l, hl⟩ := resolve_cls_ok
      (addMethods st.client [handleEntryFunction st.clientHandleMap]) st.types
    refine ⟨(addMethods st.client [handleEntryFunction st.clientHandleMap], l), ?_⟩
    unfold clientArtifact
    rw [hg]
    simp only [Bool.true_eq_false, if_false, reduceIte]
    rw [hl]
    rfl
  · unfold typesArtifact
    rw [hg]
    simp only [Bool.true_eq_false, if_false, reduceIte]

/-- The post-`generate` state for the trivial metamodel. -/
def stEmptyGen : GenState := { isGenerated := true }

/-- Witness for `C10_gating_amended` at the empty metamodel. -/
theorem C10_gating_amended_witness :
    typesArtifact 20 (initState { metaData := { version := "1" } })
        = .error .notGenerated
    ∧ (stEmptyGen.isGenerated = true
        ∧ (∃ r, serverArtifact stEmptyGen = .ok r)
        ∧ (∃ r, clientArtifact stEmptyGen = .ok r)
        ∧ typesArtifact 20 stEmptyGen
            = orderedNames 20 (baseAliases ++ stEmptyGen.types)) :=
  ⟨(C10_gating_amended { metaData := { version := "1" } } 20).1,
    (C10_gating_amended { metaData := { version := "1" } } 20).2.2.2
      stEmptyGen rfl⟩


/-! ### C1: the dependency orderer's output order

Reference sets.  `codeRefs` is what `define_name` actually chases: whole
parent names found in `name_map`, and the identifier tokens of the
`findall` scan (two characters or more) of each variable annotation or
alias bound expression, again only those found in `name_map`.
`claimRefs` is the claim's notion, with the spec-side tokens (one
character or more). -/

def presentFilter (names : List Defn) (ts : List String) : List String :=
  ts.filter (fun t => (nmLookup names t).isSome)

def codeRefs (names : List Defn) : Defn → List String
  | .cls c =>
    presentFilter names c.parents
      ++ (c.variables_.map (fun v =>
            match v.annot with
            | some a => presentFilter names (findIdents a)
            | none => [])).flatten
  | .var v =>
    if v.annot = some "TypeAlias" then
      match v.value with
      | some s => presentFilter names (findIdents s)
      | none => []
    else []

def stepRefsCode (names : List Defn) (n : String) : List String :=
  match nmLookup names n with
  | some d => codeRefs names d
  | none => []

def claimRefs (names : List Defn) : Defn → List String
  | .cls c =>
    presentFilter names c.parents
      ++ (c.variables_.map (fun v =>
            match v.annot with
            | some a => presentFilter names (specTokens a)
            | none => [])).flatten
  | .var v =>
    if v.annot = some "TypeAlias" then
      match v.value with
      | some s => presentFilter names (specTokens s)
      | none => []
    else []

def stepRefsClaim (names : List Defn) (n : String) : List String :=
  match nmLookup names n with
  | some d => claimRefs names d
  | none => []

/-- One round of closing a name set under the claim's reference step. -/
def reachExpand (names : List Defn) (acc : List String) : List String :=
  acc ++ ((acc.map (stepRefsClaim names)).flatten).filter
    (fun m => ! acc.contains m)

def reachIter (names : List Defn) : Nat → List String → List String
  | 0, acc => acc
  | k + 1, acc => reachIter names k (reachExpand names acc)

/-- `b` is reachable from `a` through the claim's reference relation
(reflexively). -/
def reachable (names : List Defn) (a b : String) : Bool :=
  (reachIter names names.length [a]).contains b

/-- `n` participates in a reference cycle. -/
def inCycle (names : List Defn) (n : String) : Bool :=
  (stepRefsClaim names n).any (fun m => reachable names m n)

/-- Two names with no reference relation either way. -/
def unrelated (names : List Defn) (a b : String) : Bool :=
  !(reachable names a b || reachable names b a)

/-- Position of `n` in the declaration sequence. -/
def declIdx (names : List Defn) (n : String) : Nat :=
  firstIdx n (names.map Defn.name)

/-- The claim, as stated, about an orderer output `out`: every reference
present in the definition set strictly precedes its consumer unless the
consumer is in a reference cycle; the output is duplicate-free; and
unrelated names keep their declaration order. -/
def claimC1Holds (names : List Defn) (out : List String) : Prop :=
  (∀ n ∈ out, ∀ r ∈ stepRefsClaim names n,
      inCycle names n = true ∨ (r ∈ out ∧ firstIdx r out < firstIdx n out))
  ∧ out.Nodup
  ∧ (∀ a ∈ out, ∀ b ∈ out, unrelated names a b = true →
      (declIdx names a < declIdx names b ↔ firstIdx a out < firstIdx b out))

def exA : Defn := .cls
  { name := "Aa",
    variables_ :=
      [ { name := "f", annot := some "B" },
        { name := "g", annot := some "Cc" } ] }

def exZ : Defn := .var
  { name := "Zz", annot := some "TypeAlias", value := some "int" }

def exB : Defn := .var
  { name := "B", annot := some "TypeAlias", value := some "int" }

def exC : Defn := .var
  { name := "Cc", annot := some "TypeAlias", value := some "int" }

/-- Declarations `Aa` (fields annotated `B` and `Cc`), `Zz`, `B`, `Cc`:
`Aa` references both `B` and `Cc` per the claim, and there is no cycle. -/
def exNames : List Defn := [exA, exZ, exB, exC]

/-- **C1, counterexample to the claim as stated:** on `exNames` the
orderer outputs `Cc, Aa, Zz, B`.  `Aa` references `B` (a field
annotation that names a defined alias) and is in no reference cycle, yet
`B` is placed after `Aa` — the one-character identifier `B` is invisible
to the `findall` scan, which requires two characters.  Also `Zz` and
`Cc` are unrelated and declared in that order, yet come out in the
opposite order. -/
theorem C1_counterexample :
    orderedKeys 20 exNames = .ok ["Cc", "Aa", "Zz", "B"]
    ∧ ¬ claimC1Holds exNames ["Cc", "Aa", "Zz", "B"] := by
  constructor
  · decide
  · unfold claimC1Holds
    decide


/-! Positions of first occurrences, and the first-seen de-duplication. -/

lemma firstIdx_lt_length (x : String) :
    ∀ l : List String, x ∈ l → firstIdx x l < l.length := by
  intro l
  induction l with
  | nil => intro h; cases h
  | cons y ys ih =>
    intro hx
    by_cases hyx : y = x
    · simp only [firstIdx, if_pos hyx, List.length_cons]
      omega
    · simp only [firstIdx, if_neg hyx, List.length_cons]
      have hx2 : x ∈ ys := by
        rcases List.mem_cons.mp hx with h | h
        · exact absurd h.symm hyx
        · exact h
      have := ih hx2
      omega

lemma firstIdx_append_left (x : String) :
    ∀ l l2 : List String, x ∈ l → firstIdx x (l ++ l2) = firstIdx x l := by
  intro l
  induction l with
  | nil => intro l2 h; cases h
  | cons y ys ih =>
    intro l2 hx
    by_cases hyx : y = x
    · simp only [List.cons_append, firstIdx, if_pos hyx]
    · have hx2 : x ∈ ys := by
        rcases List.mem_cons.mp hx with h | h
        · exact absurd h.symm hyx
        · exact h
      simp only [List.cons_append, firstIdx, if_neg hyx, List.append_eq,
        ih l2 hx2]

lemma firstIdx_append_right (x : String) :
    ∀ l l2 : List String, x ∉ l →
      firstIdx x (l ++ l2) = l.length + firstIdx x l2 := by
  intro l
  induction l with
  | nil => intro l2 _; simp
  | cons y ys ih =>
    intro l2 hx
    have hyx : ¬ (y = x) := fun h => hx (List.mem_cons.mpr (Or.inl h.symm))
    have hx2 : x ∉ ys := fun h => hx (List.mem_cons.mpr (Or.inr h))
    simp only [List.cons_append, firstIdx, if_neg hyx, List.append_eq,
      ih l2 hx2, List.length_cons]
    omega

lemma mem_dedupGo (x : String) :
    ∀ (l seen : List String), x ∈ dedupGo seen l ↔ x ∈ l ∧ x ∉ seen := by
  intro l
  induction l with
  | nil => intro seen; simp [dedupGo]
  | cons y ys ih =>
    intro seen
    by_cases hy : y ∈ seen
    · rw [show dedupGo seen (y :: ys) = dedupGo seen ys from by
        simp [dedupGo, if_pos hy]]
      rw [ih seen]
      constructor
      · rintro ⟨h1, h2⟩
        exact ⟨List.mem_cons_of_mem y h1, h2⟩
      · rintro ⟨h1, h2⟩
        rcases List.mem_cons.mp h1 with h | h
        · exact absurd (h ▸ hy) h2
        · exact ⟨h, h2⟩
    · rw [show dedupGo seen (y :: ys) = y :: dedupGo (y :: seen) ys from by
        simp [dedupGo, if_neg hy]]
      constructor
      · intro hmem
        rcases List.mem_cons.mp hmem with h | h
        · exact ⟨List.mem_cons.mpr (Or.inl h), h ▸ hy⟩
        · have := (ih (y :: seen)).mp h
          refine ⟨List.mem_cons_of_mem y this.1, fun hc => this.2 ?_⟩
          exact List.mem_cons_of_mem y hc
      · rintro ⟨h1, h2⟩
        by_cases hxy : x = y
        · exact List.mem_cons.mpr (Or.inl hxy)
        · have hx2 : x ∈ ys := by
            rcases List.mem_cons.mp h1 with h | h
            · exact absurd h hxy
            · exact h
          refine List.mem_cons_of_mem y ((ih (y :: seen)).mpr ⟨hx2, ?_⟩)
          intro hc
          rcases List.mem_cons.mp hc with h | h
          · exact hxy h
          · exact h2 h

lemma dedupGo_nodup : ∀ (l seen : List String), (dedupGo seen l).Nodup := by
  intro l
  induction l with
  | nil => intro seen; simp [dedupGo]
  | cons y ys ih =>
    intro seen
    by_cases hy : y ∈ seen
    · rw [show dedupGo seen (y :: ys) = dedupGo seen ys from by
        simp [dedupGo, if_pos hy]]
      exact ih seen
    · rw [show dedupGo seen (y :: ys) = y :: dedupGo (y :: seen) ys from by
        simp [dedupGo, if_neg hy]]
      refine List.nodup_cons.mpr ⟨?_, ih (y :: seen)⟩
      intro hc
      exact ((mem_dedupGo y ys (y :: seen)).mp hc).2 (List.mem_cons_self ..)

lemma dedupGo_firstIdx (x y : String) :
    ∀ (l seen : List String), x ∈ l → x ∉ seen → y ∈ l → y ∉ seen →
      firstIdx x l < firstIdx y l →
      firstIdx x (dedupGo seen l) < firstIdx y (dedupGo seen l) := by
  intro l
  induction l with
  | nil => intro seen h; cases h
  | cons a t ih =>
    intro seen hx hxs hy hys hlt
    by_cases hax : a = x
    · have hay : ¬ (a = y) := by
        intro hay
        rw [firstIdx, if_pos hax, firstIdx, if_pos hay] at hlt
        omega
      rw [show dedupGo seen (a :: t) = a :: dedupGo (a :: seen) t from by
        simp [dedupGo, hax ▸ hxs]]
      rw [firstIdx, if_pos hax, firstIdx, if_neg hay]
      omega
    · by_cases hay : a = y
      · rw [firstIdx, if_neg hax, firstIdx, if_pos hay] at hlt
        omega
      · have hx2 : x ∈ t := by
          rcases List.mem_cons.mp hx with h | h
          · exact absurd h.symm hax
          · exact h
        have hy2 : y ∈ t := by
          rcases List.mem_cons.mp hy with h | h
          · exact absurd h.symm hay
          · exact h
        rw [firstIdx, if_neg hax, firstIdx, if_neg hay] at hlt
        have hlt2 : firstIdx x t < firstIdx y t := by omega
        by_cases ha : a ∈ seen
        · rw [show dedupGo seen (a :: t) = dedupGo seen t from by
            simp [dedupGo, if_pos ha]]
          exact ih seen hx2 hxs hy2 hys hlt2
        · rw [show dedupGo seen (a :: t) = a :: dedupGo (a :: seen) t from by
            simp [dedupGo, if_neg ha]]
          rw [firstIdx, if_neg hax, firstIdx, if_neg hay]
          have hxs2 : x ∉ a :: seen := by
            intro hc
            rcases List.mem_cons.mp hc with h | h
            · exact hax h.symm
            · exact hxs h
          have hys2 : y ∉ a :: seen := by
            intro hc
            rcases List.mem_cons.mp hc with h | h
            · exact hay h.symm
            · exact hys h
          have := ih (a :: seen) hx2 hxs2 hy2 hys2 hlt2
          omega

lemma mem_dedupFirst (x : String) (l : List String) :
    x ∈ dedupFirst l ↔ x ∈ l := by
  unfold dedupFirst
  rw [mem_dedupGo]
  simp

lemma dedupFirst_nodup (l : List String) : (dedupFirst l).Nodup :=
  dedupGo_nodup l []

lemma dedupFirst_firstIdx (x y : String) (l : List String) (hx : x ∈ l)
    (hy : y ∈ l) (hlt : firstIdx x l < firstIdx y l) :
    firstIdx x (dedupFirst l) < firstIdx y (dedupFirst l) :=
  dedupGo_firstIdx x y l [] hx (by simp) hy (by simp) hlt


/-- The placement invariant of `define_name`: the `defined_names`
sequence grows one name at a time, and when a name is appended, every
reference the code chases for it is already present. -/
inductive Placed (names : List Defn) : List String → Prop
  | nil : Placed names []
  | snoc (l : List String) (n : String) : Placed names l →
      (∀ r ∈ stepRefsCode names n, r ∈ l) → Placed names (l ++ [n])

/-- In a placed sequence, every reference of a name occurs, and its
first occurrence strictly precedes the name's first occurrence. -/
lemma placed_firstIdx (names : List Defn) (l : List String)
    (hp : Placed names l) :
    ∀ n ∈ l, ∀ r ∈ stepRefsCode names n,
      r ∈ l ∧ firstIdx r l < firstIdx n l := by
  induction hp with
  | nil => intro n hn; cases hn
  | snoc l n hl hrefs ih =>
    intro m hm r hr
    by_cases hml : m ∈ l
    · obtain ⟨hr1, hr2⟩ := ih m hml r hr
      refine ⟨List.mem_append_left _ hr1, ?_⟩
      rw [firstIdx_append_left r l [n] hr1, firstIdx_append_left m l [n] hml]
      exact hr2
    · have hmn : m = n := by
        rcases List.mem_append.mp hm with h | h
        · exact absurd h hml
        · simpa using h
      subst hmn
      have hrl : r ∈ l := hrefs r hr
      refine ⟨List.mem_append_left _ hrl, ?_⟩
      rw [firstIdx_append_left r l [m] hrl,
        firstIdx_append_right m l [m] hml]
      have := firstIdx_lt_length r l hrl
      omega

lemma nmLookup_name (names : List Defn) (s : String) (d : Defn)
    (h : nmLookup names s = some d) : d.name = s := by
  unfold nmLookup at h
  have := List.find?_some h
  exact of_decide_eq_true this

lemma nmLookup_mem (names : List Defn) (s : String) (d : Defn)
    (h : nmLookup names s = some d) : d ∈ names := by
  unfold nmLookup at h
  exact List.mem_reverse.mp (List.mem_of_find?_eq_some h)

/-- Looking a found definition's own name up returns it again. -/
lemma nmLookup_idem (names : List Defn) (s : String) (d : Defn)
    (h : nmLookup names s = some d) : nmLookup names d.name = some d := by
  rw [nmLookup_name names s d h]
  exact h

/-- With pairwise-distinct declared names, every declared definition is
its own lookup result. -/
lemma nmLookup_self_of_nodup (names : List Defn)
    (hnodup : (names.map Defn.name).Nodup) :
    ∀ d ∈ names, nmLookup names d.name = some d := by
  intro d hd
  cases hf : nmLookup names d.name with
  | none =>
    unfold nmLookup at hf
    have := List.find?_eq_none.mp hf d (List.mem_reverse.mpr hd)
    simp at this
  | some x =>
    have hx : x.name = d.name := nmLookup_name names d.name x hf
    have hxm : x ∈ names := nmLookup_mem names d.name x hf
    have : x = d := List.inj_on_of_nodup_map hnodup hxm hd hx
    exact congrArg some this


/-! `defined_names` only ever grows by appending, a successful
`define_name` call appends its argument's name last, and the `caught`
flag is never reset. -/

lemma parentsLoop_ext (rec9 : Defn → OrdererState → Except PyErr OrdererState)
    (names : List Defn)
    (h9 : ∀ d st st', rec9 d st = .ok st' → ∃ q, st'.defined = st.defined ++ q) :
    ∀ ps st st', parentsLoop rec9 names ps st = .ok st' →
      ∃ q, st'.defined = st.defined ++ q := by
  intro ps
  induction ps with
  | nil =>
    intro st st' h
    rw [show parentsLoop rec9 names [] st = .ok st from rfl] at h
    injection h with h
    exact ⟨[], by rw [← h]; simp⟩
  | cons p ps ih =>
    intro st st' h
    by_cases hmem : p ∈ st.defined
    · simp only [parentsLoop, if_pos hmem] at h
      exact ih st st' h
    · cases hl : nmLookup names p with
      | none =>
        simp only [parentsLoop, if_neg hmem, hl] at h
        exact ih st st' h
      | some obj =>
        simp only [parentsLoop, if_neg hmem, hl] at h
        cases h9r : rec9 obj st with
        | error e => rw [h9r] at h; cases h
        | ok st1 =>
          rw [h9r] at h
          obtain ⟨q1, hq1⟩ := h9 obj st st1 h9r
          obtain ⟨q2, hq2⟩ := ih st1 st' h
          exact ⟨q1 ++ q2, by rw [hq2, hq1, List.append_assoc]⟩

lemma tokensLoop_ext (rec9 : Defn → OrdererState → Except PyErr OrdererState)
    (names : List Defn)
    (h9 : ∀ d st st', rec9 d st = .ok st' → ∃ q, st'.defined = st.defined ++ q) :
    ∀ ts st st', tokensLoop rec9 names ts st = .ok st' →
      ∃ q, st'.defined = st.defined ++ q := by
  intro ts
  induction ts with
  | nil =>
    intro st st' h
    rw [show tokensLoop rec9 names [] st = .ok st from rfl] at h
    injection h with h
    exact ⟨[], by rw [← h]; simp⟩
  | cons t ts ih =>
    intro st st' h
    by_cases hmem : t ∈ st.defined
    · simp only [tokensLoop, if_pos hmem] at h
      exact ih st st' h
    · cases hl : nmLookup names t with
      | none =>
        simp only [tokensLoop, if_neg hmem, hl] at h
        exact ih st st' h
      | some obj =>
        simp only [tokensLoop, if_neg hmem, hl] at h
        cases h9r : rec9 obj st with
        | error e =>
          rw [h9r] at h
          cases e with
          | recursionError => exact ih { st with caught := true } st' h
          | _ => cases h
        | ok st1 =>
          rw [h9r] at h
          obtain ⟨q1, hq1⟩ := h9 obj st st1 h9r
          obtain ⟨q2, hq2⟩ := ih st1 st' h
          exact ⟨q1 ++ q2, by rw [hq2, hq1, List.append_assoc]⟩

lemma varsLoop_ext (rec9 : Defn → OrdererState → Except PyErr OrdererState)
    (names : List Defn)
    (h9 : ∀ d st st', rec9 d st = .ok st' → ∃ q, st'.defined = st.defined ++ q) :
    ∀ vs st st', varsLoop rec9 names vs st = .ok st' →
      ∃ q, st'.defined = st.defined ++ q := by
  intro vs
  induction vs with
  | nil =>
    intro st st' h
    rw [show varsLoop rec9 names [] st = .ok st from rfl] at h
    injection h with h
    exact ⟨[], by rw [← h]; simp⟩
  | cons v vs ih =>
    intro st st' h
    cases ha : v.annot with
    | none =>
      simp only [varsLoop, ha] at h
      exact ih st st' h
    | some a =>
      simp only [varsLoop, ha] at h
      cases ht : tokensLoop rec9 names (findIdents a) st with
      | error e => rw [ht] at h; cases h
      | ok st1 =>
        rw [ht] at h
        obtain ⟨q1, hq1⟩ := tokensLoop_ext rec9 names h9 (findIdents a) st st1 ht
        obtain ⟨q2, hq2⟩ := ih st1 st' h
        exact ⟨q1 ++ q2, by rw [hq2, hq1, List.append_assoc]⟩

/-- A successful `define_name` appends its argument's own name last. -/
lemma defineName_ext (names : List Defn) :
    ∀ f d st st', defineName f names d st = .ok st' →
      ∃ q, st'.defined = st.defined ++ q ++ [d.name] := by
  intro f
  induction f with
  | zero => intro d st st' h; cases h
  | succ f ih =>
    have h9 : ∀ d st st', defineName f names d st = .ok st' →
        ∃ q, st'.defined = st.defined ++ q := by
      intro d st st' h
      obtain ⟨q, hq⟩ := ih d st st' h
      exact ⟨q ++ [d.name], by rw [hq, List.append_assoc]⟩
    intro d st st' h
    cases d with
    | cls c =>
      cases hp : parentsLoop (defineName f names) names c.parents st with
      | error e =>
        simp only [defineName, hp] at h
        exact Except.noConfusion h
      | ok st1 =>
        cases hv : varsLoop (defineName f names) names c.variables_ st1 with
        | error e =>
          simp only [defineName, hp, hv] at h
          exact Except.noConfusion h
        | ok st2 =>
          simp only [defineName, hp, hv, Except.ok.injEq] at h
          obtain ⟨q1, hq1⟩ := parentsLoop_ext _ names h9 c.parents st st1 hp
          obtain ⟨q2, hq2⟩ := varsLoop_ext _ names h9 c.variables_ st1 st2 hv
          refine ⟨q1 ++ q2, ?_⟩
          rw [← h]
          show st2.defined ++ [c.name] = _
          rw [hq2, hq1, Defn.name]
          simp [List.append_assoc]
    | var v =>
      by_cases hta : v.annot = some "TypeAlias"
      · cases hval : v.value with
        | none =>
          simp only [defineName, hta, hval, if_true] at h
          exact Except.noConfusion h
        | some s =>
          cases ht : tokensLoop (defineName f names) names (findIdents s) st with
          | error e =>
            simp only [defineName, hta, hval, ht, if_true] at h
            exact Except.noConfusion h
          | ok st1 =>
            simp only [defineName, hta, hval, ht, if_true, Except.ok.injEq] at h
            obtain ⟨q1, hq1⟩ :=
              tokensLoop_ext _ names h9 (findIdents s) st st1 ht
            refine ⟨q1 ++ [s].take 0, ?_⟩
            rw [← h]
            show st1.defined ++ [v.name] = _
            rw [hq1, Defn.name]
            simp
      · simp only [defineName, if_neg hta, Except.ok.injEq] at h
        refine ⟨[], ?_⟩
        rw [← h]
        show st.defined ++ [v.name] = _
        rw [Defn.name]
        simp


lemma parentsLoop_caught (rec9 : Defn → OrdererState → Except PyErr OrdererState)
    (names : List Defn)
    (h9 : ∀ d st st', rec9 d st = .ok st' → st'.caught = false →
      st.caught = false) :
    ∀ ps st st', parentsLoop rec9 names ps st = .ok st' →
      st'.caught = false → st.caught = false := by
  intro ps
  induction ps with
  | nil =>
    intro st st' h hc
    rw [show parentsLoop rec9 names [] st = .ok st from rfl] at h
    injection h with h
    rw [h]
    exact hc
  | cons p ps ih =>
    intro st st' h hc
    by_cases hmem : p ∈ st.defined
    · simp only [parentsLoop, if_pos hmem] at h
      exact ih st st' h hc
    · cases hl : nmLookup names p with
      | none =>
        simp only [parentsLoop, if_neg hmem, hl] at h
        exact ih st st' h hc
      | some obj =>
        simp only [parentsLoop, if_neg hmem, hl] at h
        cases h9r : rec9 obj st with
        | error e => rw [h9r] at h; cases h
        | ok st1 =>
          rw [h9r] at h
          exact h9 obj st st1 h9r (ih st1 st' h hc)

lemma tokensLoop_caught (rec9 : Defn → OrdererState → Except PyErr OrdererState)
    (names : List Defn)
    (h9 : ∀ d st st', rec9 d st = .ok st' → st'.caught = false →
      st.caught = false) :
    ∀ ts st st', tokensLoop rec9 names ts st = .ok st' →
      st'.caught = false → st.caught = false := by
  intro ts
  induction ts with
  | nil =>
    intro st st' h hc
    rw [show tokensLoop rec9 names [] st = .ok st from rfl] at h
    injection h with h
    rw [h]
    exact hc
  | cons t ts ih =>
    intro st st' h hc
    by_cases hmem : t ∈ st.defined
    · simp only [tokensLoop, if_pos hmem] at h
      exact ih st st' h hc
    · cases hl : nmLookup names t with
      | none =>
        simp only [tokensLoop, if_neg hmem, hl] at h
        exact ih st st' h hc
      | some obj =>
        simp only [tokensLoop, if_neg hmem, hl] at h
        cases h9r : rec9 obj st with
        | error e =>
          rw [h9r] at h
          cases e with
          | recursionError =>
            have := ih { st with caught := true } st' h hc
            exact absurd this (by simp)
          | _ => cases h
        | ok st1 =>
          rw [h9r] at h
          exact h9 obj st st1 h9r (ih st1 st' h hc)

lemma varsLoop_caught (rec9 : Defn → OrdererState → Except PyErr OrdererState)
    (names : List Defn)
    (h9 : ∀ d st st', rec9 d st = .ok st' → st'.caught = false →
      st.caught = false) :
    ∀ vs st st', varsLoop rec9 names vs st = .ok st' →
      st'.caught = false → st.caught = false := by
  intro vs
  induction vs with
  | nil =>
    intro st st' h hc
    rw [show varsLoop rec9 names [] st = .ok st from rfl] at h
    injection h with h
    rw [h]
    exact hc
  | cons v vs ih =>
    intro st st' h hc
    cases ha : v.annot with
    | none =>
      simp only [varsLoop, ha] at h
      exact ih st st' h hc
    | some a =>
      simp only [varsLoop, ha] at h
      cases ht : tokensLoop rec9 names (findIdents a) st with
      | error e => rw [ht] at h; cases h
      | ok st1 =>
        rw [ht] at h
        exact tokensLoop_caught rec9 names h9 (findIdents a) st st1 ht
          (ih st1 st' h hc)

lemma defineName_caught (names : List Defn) :
    ∀ f d st st', defineName f names d st = .ok st' →
      st'.caught = false → st.caught = false := by
  intro f
  induction f with
  | zero => intro d st st' h; cases h
  | succ f ih =>
    intro d st st' h hc
    cases d with
    | cls c =>
      cases hp : parentsLoop (defineName f names) names c.parents st with
      | error e =>
        simp only [defineName, hp] at h
        exact Except.noConfusion h
      | ok st1 =>
        cases hv : varsLoop (defineName f names) names c.variables_ st1 with
        | error e =>
          simp only [defineName, hp, hv] at h
          exact Except.noConfusion h
        | ok st2 =>
          simp only [defineName, hp, hv, Except.ok.injEq] at h
          have hc2 : st2.caught = false := by rw [← h] at hc; exact hc
          exact parentsLoop_caught _ names ih c.parents st st1 hp
            (varsLoop_caught _ names ih c.variables_ st1 st2 hv hc2)
    | var v =>
      by_cases hta : v.annot = some "TypeAlias"
      · cases hval : v.value with
        | none =>
          simp only [defineName, hta, hval, if_true] at h
          exact Except.noConfusion h
        | some s =>
          cases ht : tokensLoop (defineName f names) names (findIdents s) st with
          | error e =>
            simp only [defineName, hta, hval, ht, if_true] at h
            exact Except.noConfusion h
          | ok st1 =>
            simp only [defineName, hta, hval, ht, if_true, Except.ok.injEq] at h
            have hc1 : st1.caught = false := by rw [← h] at hc; exact hc
            exact tokensLoop_caught _ names ih (findIdents s) st st1 ht hc1
      · simp only [defineName, if_neg hta, Except.ok.injEq] at h
        rw [← h] at hc
        exact hc


/-! The placement invariant is preserved through the loops, and each loop
leaves every reference it was responsible for in `defined_names` —
provided the run swallowed no `RecursionError`. -/

lemma parentsLoop_inv (rec9 : Defn → OrdererState → Except PyErr OrdererState)
    (names : List Defn)
    (h9ext : ∀ d st st', rec9 d st = .ok st' →
      ∃ q, st'.defined = st.defined ++ q ++ [d.name])
    (h9c : ∀ d st st', rec9 d st = .ok st' → st'.caught = false →
      st.caught = false)
    (h9inv : ∀ d st st', nmLookup names d.name = some d → rec9 d st = .ok st' →
      st'.caught = false → Placed names st.defined → Placed names st'.defined) :
    ∀ ps st st', parentsLoop rec9 names ps st = .ok st' → st'.caught = false →
      Placed names st.defined →
      Placed names st'.defined
      ∧ ∀ p ∈ ps, (nmLookup names p).isSome = true → p ∈ st'.defined := by
  have h9w : ∀ d st st', rec9 d st = .ok st' →
      ∃ q, st'.defined = st.defined ++ q := by
    intro d st st' h
    obtain ⟨q, hq⟩ := h9ext d st st' h
    exact ⟨q ++ [d.name], by rw [hq, List.append_assoc]⟩
  intro ps
  induction ps with
  | nil =>
    intro st st' h hc hpl
    rw [show parentsLoop rec9 names [] st = .ok st from rfl] at h
    injection h with h
    subst h
    exact ⟨hpl, by intro p hp; cases hp⟩
  | cons p ps ih =>
    intro st st' h hc hpl
    by_cases hmem : p ∈ st.defined
    · simp only [parentsLoop, if_pos hmem] at h
      obtain ⟨hpl2, hmem2⟩ := ih st st' h hc hpl
      refine ⟨hpl2, ?_⟩
      intro q hq hqs
      rcases List.mem_cons.mp hq with hq | hq
      · subst hq
        obtain ⟨w, hw⟩ := parentsLoop_ext rec9 names h9w ps st st' h
        rw [hw]
        exact List.mem_append_left _ hmem
      · exact hmem2 q hq hqs
    · cases hl : nmLookup names p with
      | none =>
        simp only [parentsLoop, if_neg hmem, hl] at h
        obtain ⟨hpl2, hmem2⟩ := ih st st' h hc hpl
        refine ⟨hpl2, ?_⟩
        intro q hq hqs
        rcases List.mem_cons.mp hq with hq | hq
        · subst hq
          rw [hl] at hqs
          cases hqs
        · exact hmem2 q hq hqs
      | some obj =>
        simp only [parentsLoop, if_neg hmem, hl] at h
        cases h9r : rec9 obj st with
        | error e => rw [h9r] at h; cases h
        | ok st1 =>
          rw [h9r] at h
          have hc1 : st1.caught = false :=
            parentsLoop_caught rec9 names h9c ps st1 st' h hc
          have hpl1 : Placed names st1.defined :=
            h9inv obj st st1 (nmLookup_idem names p obj hl) h9r hc1 hpl
          obtain ⟨hpl2, hmem2⟩ := ih st1 st' h hc hpl1
          refine ⟨hpl2, ?_⟩
          intro q hq hqs
          rcases List.mem_cons.mp hq with hq | hq
          · subst hq
            obtain ⟨w, hw⟩ := h9ext obj st st1 h9r
            obtain ⟨w2, hw2⟩ := parentsLoop_ext rec9 names h9w ps st1 st' h
            rw [hw2, hw, nmLookup_name names q obj hl]
            exact List.mem_append_left _
              (List.mem_append_right _ (List.mem_singleton.mpr rfl))
          · exact hmem2 q hq hqs

lemma tokensLoop_inv (rec9 : Defn → OrdererState → Except PyErr OrdererState)
    (names : List Defn)
    (h9ext : ∀ d st st', rec9 d st = .ok st' →
      ∃ q, st'.defined = st.defined ++ q ++ [d.name])
    (h9c : ∀ d st st', rec9 d st = .ok st' → st'.caught = false →
      st.caught = false)
    (h9inv : ∀ d st st', nmLookup names d.name = some d → rec9 d st = .ok st' →
      st'.caught = false → Placed names st.defined → Placed names st'.defined) :
    ∀ ts st st', tokensLoop rec9 names ts st = .ok st' → st'.caught = false →
      Placed names st.defined →
      Placed names st'.defined
      ∧ ∀ t ∈ ts, (nmLookup names t).isSome = true → t ∈ st'.defined := by
  have h9w : ∀ d st st', rec9 d st = .ok st' →
      ∃ q, st'.defined = st.defined ++ q := by
    intro d st st' h
    obtain ⟨q, hq⟩ := h9ext d st st' h
    exact ⟨q ++ [d.name], by rw [hq, List.append_assoc]⟩
  intro ts
  induction ts with
  | nil =>
    intro st st' h hc hpl
    rw [show tokensLoop rec9 names [] st = .ok st from rfl] at h
    injection h with h
    subst h
    exact ⟨hpl, by intro t ht; cases ht⟩
  | cons t ts ih =>
    intro st st' h hc hpl
    by_cases hmem : t ∈ st.defined
    · simp only [tokensLoop, if_pos hmem] at h
      obtain ⟨hpl2, hmem2⟩ := ih st st' h hc hpl
      refine ⟨hpl2, ?_⟩
      intro q hq hqs
      rcases List.mem_cons.mp hq with hq | hq
      · subst hq
        obtain ⟨w, hw⟩ := tokensLoop_ext rec9 names h9w ts st st' h
        rw [hw]
        exact List.mem_append_left _ hmem
      · exact hmem2 q hq hqs
    · cases hl : nmLookup names t with
      | none =>
        simp only [tokensLoop, if_neg hmem, hl] at h
        obtain ⟨hpl2, hmem2⟩ := ih st st' h hc hpl
        refine ⟨hpl2, ?_⟩
        intro q hq hqs
        rcases List.mem_cons.mp hq with hq | hq
        · subst hq
          rw [hl] at hqs
          cases hqs
        · exact hmem2 q hq hqs
      | some obj =>
        simp only [tokensLoop, if_neg hmem, hl] at h
        cases h9r : rec9 obj st with
        | error e =>
          rw [h9r] at h
          cases e with
          | recursionError =>
            have := tokensLoop_caught rec9 names h9c ts
              { st with caught := true } st' h hc
            exact absurd this (by simp)
          | _ => cases h
        | ok st1 =>
          rw [h9r] at h
          have hc1 : st1.caught = false :=
            tokensLoop_caught rec9 names h9c ts st1 st' h hc
          have hpl1 : Placed names st1.defined :=
            h9inv obj st st1 (nmLookup_idem names t obj hl) h9r hc1 hpl
          obtain ⟨hpl2, hmem2⟩ := ih st1 st' h hc hpl1
          refine ⟨hpl2, ?_⟩
          intro q hq hqs
          rcases List.mem_cons.mp hq with hq | hq
          · subst hq
            obtain ⟨w, hw⟩ := h9ext obj st st1 h9r
            obtain ⟨w2, hw2⟩ := tokensLoop_ext rec9 names h9w ts st1 st' h
            rw [hw2, hw, nmLookup_name names q obj hl]
            exact List.mem_append_left _
              (List.mem_append_right _ (List.mem_singleton.mpr rfl))
          · exact hmem2 q hq hqs

lemma varsLoop_inv (rec9 : Defn → OrdererState → Except PyErr OrdererState)
    (names : List Defn)
    (h9ext : ∀ d st st', rec9 d st = .ok st' →
      ∃ q, st'.defined = st.defined ++ q ++ [d.name])
    (h9c : ∀ d st st', rec9 d st = .ok st' → st'.caught = false →
      st.caught = false)
    (h9inv : ∀ d st st', nmLookup names d.name = some d → rec9 d st = .ok st' →
      st'.caught = false → Placed names st.defined → Placed names st'.defined) :
    ∀ vs st st', varsLoop rec9 names vs st = .ok st' → st'.caught = false →
      Placed names st.defined →
      Placed names st'.defined
      ∧ ∀ v ∈ vs, ∀ a, v.annot = some a → ∀ t ∈ findIdents a,
          (nmLookup names t).isSome = true → t ∈ st'.defined := by
  have h9w : ∀ d st st', rec9 d st = .ok st' →
      ∃ q, st'.defined = st.defined ++ q := by
    intro d st st' h
    obtain ⟨q, hq⟩ := h9ext d st st' h
    exact ⟨q ++ [d.name], by rw [hq, List.append_assoc]⟩
  intro vs
  induction vs with
  | nil =>
    intro st st' h hc hpl
    rw [show varsLoop rec9 names [] st = .ok st from rfl] at h
    injection h with h
    subst h
    exact ⟨hpl, by intro v hv; cases hv⟩
  | cons v vs ih =>
    intro st st' h hc hpl
    cases ha : v.annot with
    | none =>
      simp only [varsLoop, ha] at h
      obtain ⟨hpl2, hmem2⟩ := ih st st' h hc hpl
      refine ⟨hpl2, ?_⟩
      intro w hw a ha2
      rcases List.mem_cons.mp hw with hw | hw
      · subst hw
        rw [ha] at ha2
        cases ha2
      · exact hmem2 w hw a ha2
    | some a =>
      simp only [varsLoop, ha] at h
      cases ht : tokensLoop rec9 names (findIdents a) st with
      | error e => rw [ht] at h; cases h
      | ok st1 =>
        rw [ht] at h
        have hc1 : st1.caught = false :=
          varsLoop_caught rec9 names h9c vs st1 st' h hc
        obtain ⟨hpl1, hmemT⟩ :=
          tokensLoop_inv rec9 names h9ext h9c h9inv (findIdents a) st st1
            ht hc1 hpl
        obtain ⟨hpl2, hmem2⟩ := ih st1 st' h hc hpl1
        refine ⟨hpl2, ?_⟩
        intro w hw a2 ha2
        rcases List.mem_cons.mp hw with hw | hw
        · subst hw
          rw [ha] at ha2
          injection ha2 with ha2
          subst ha2
          intro t htk hsome
          obtain ⟨w2, hw2⟩ := varsLoop_ext rec9 names h9w vs st1 st' h
          rw [hw2]
          exact List.mem_append_left _ (hmemT t htk hsome)
        · exact hmem2 w hw a2 ha2


/-- A successful, swallow-free `define_name` call on a definition that is
its own lookup result preserves the placement invariant. -/
lemma defineName_inv (names : List Defn) :
    ∀ f d st st', nmLookup names d.name = some d →
      defineName f names d st = .ok st' → st'.caught = false →
      Placed names st.defined → Placed names st'.defined := by
  intro f
  induction f with
  | zero => intro d st st' _ h; cases h
  | succ f ih =>
    intro d st st' hd h hc hpl
    cases d with
    | cls c =>
      have hd2 : nmLookup names c.name = some (.cls c) := hd
      cases hp : parentsLoop (defineName f names) names c.parents st with
      | error e =>
        simp only [defineName, hp] at h
        exact Except.noConfusion h
      | ok st1 =>
        cases hv : varsLoop (defineName f names) names c.variables_ st1 with
        | error e =>
          simp only [defineName, hp, hv] at h
          exact Except.noConfusion h
        | ok st2 =>
          simp only [defineName, hp, hv, Except.ok.injEq] at h
          have hc2 : st2.caught = false := by rw [← h] at hc; exact hc
          have hc1 : st1.caught = false :=
            varsLoop_caught _ names (defineName_caught names f)
              c.variables_ st1 st2 hv hc2
          obtain ⟨hpl1, hmemP⟩ :=
            parentsLoop_inv _ names (defineName_ext names f)
              (defineName_caught names f) ih c.parents st st1 hp hc1 hpl
          obtain ⟨hpl2, hmemV⟩ :=
            varsLoop_inv _ names (defineName_ext names f)
              (defineName_caught names f) ih c.variables_ st1 st2 hv hc2 hpl1
          have hsr : stepRefsCode names c.name = codeRefs names (.cls c) := by
            unfold stepRefsCode
            rw [hd2]
          have hst1 : ∀ x ∈ st1.defined, x ∈ st2.defined := by
            intro x hx
            obtain ⟨w, hw⟩ := varsLoop_ext _ names
              (fun d st st' hq => by
                obtain ⟨q, hqq⟩ := defineName_ext names f d st st' hq
                exact ⟨q ++ [d.name], by rw [hqq, List.append_assoc]⟩)
              c.variables_ st1 st2 hv
            rw [hw]
            exact List.mem_append_left _ hx
          have hrefs : ∀ r ∈ stepRefsCode names c.name, r ∈ st2.defined := by
            intro r hr
            rw [hsr] at hr
            unfold codeRefs at hr
            rcases List.mem_append.mp hr with hr | hr
            · unfold presentFilter at hr
              obtain ⟨hrp, hrs⟩ := List.mem_filter.mp hr
              exact hst1 r (hmemP r hrp hrs)
            · obtain ⟨blk, hblk, hrblk⟩ := List.mem_flatten.mp hr
              obtain ⟨v, hv2, heq⟩ := List.mem_map.mp hblk
              cases hva : v.annot with
              | none =>
                rw [hva] at heq
                simp only [← heq] at hrblk
                cases hrblk
              | some a =>
                rw [hva] at heq
                simp only [← heq] at hrblk
                unfold presentFilter at hrblk
                obtain ⟨htk, hsome⟩ := List.mem_filter.mp hrblk
                exact hmemV v hv2 a hva r htk hsome
          rw [← h]
          show Placed names (st2.defined ++ [c.name])
          exact Placed.snoc st2.defined c.name hpl2 hrefs
    | var v =>
      have hd2 : nmLookup names v.name = some (.var v) := hd
      by_cases hta : v.annot = some "TypeAlias"
      · cases hval : v.value with
        | none =>
          simp only [defineName, hta, hval, if_true] at h
          exact Except.noConfusion h
        | some s =>
          cases ht : tokensLoop (defineName f names) names (findIdents s) st with
          | error e =>
            simp only [defineName, hta, hval, ht, if_true] at h
            exact Except.noConfusion h
          | ok st1 =>
            simp only [defineName, hta, hval, ht, if_true, Except.ok.injEq] at h
            have hc1 : st1.caught = false := by rw [← h] at hc; exact hc
            obtain ⟨hpl1, hmemT⟩ :=
              tokensLoop_inv _ names (defineName_ext names f)
                (defineName_caught names f) ih (findIdents s) st st1 ht hc1 hpl
            have hsr : stepRefsCode names v.name = codeRefs names (.var v) := by
              unfold stepRefsCode
              rw [hd2]
            have hcr : codeRefs names (.var v)
                = presentFilter names (findIdents s) := by
              simp only [codeRefs, hta, hval, if_true]
            have hrefs : ∀ r ∈ stepRefsCode names v.name, r ∈ st1.defined := by
              intro r hr
              rw [hsr, hcr] at hr
              unfold presentFilter at hr
              obtain ⟨htk, hsome⟩ := List.mem_filter.mp hr
              exact hmemT r htk hsome
            rw [← h]
            show Placed names (st1.defined ++ [v.name])
            exact Placed.snoc st1.defined v.name hpl1 hrefs
      · simp only [defineName, if_neg hta, Except.ok.injEq] at h
        have hsr : stepRefsCode names v.name = codeRefs names (.var v) := by
          unfold stepRefsCode
          rw [hd2]
        have hcr : codeRefs names (.var v) = [] := by
          simp only [codeRefs, if_neg hta]
        have hrefs : ∀ r ∈ stepRefsCode names v.name, r ∈ st.defined := by
          intro r hr
          rw [hsr, hcr] at hr
          cases hr
        rw [← h]
        show Placed names (st.defined ++ [v.name])
        exact Placed.snoc st.defined v.name hpl hrefs


lemma foldDefine_ext (names : List Defn) (fuel : Nat) :
    ∀ (l : List Defn) st st',
      List.foldlM (fun st d => defineName fuel names d st) st l = .ok st' →
      ∃ q, st'.defined = st.defined ++ q := by
  intro l
  induction l with
  | nil =>
    intro st st' h
    rw [show List.foldlM (fun st d => defineName fuel names d st) st
        ([] : List Defn) = .ok st from rfl] at h
    injection h with h
    exact ⟨[], by rw [← h]; simp⟩
  | cons d l ih =>
    intro st st' h
    rw [List.foldlM_cons] at h
    obtain ⟨st1, h1, h2⟩ := (bind_ok_iff _ _ _).mp h
    have h1b : defineName fuel names d st = .ok st1 := h1
    obtain ⟨q1, hq1⟩ := defineName_ext names fuel d st st1 h1b
    obtain ⟨q2, hq2⟩ := ih st1 st' h2
    exact ⟨q1 ++ [d.name] ++ q2, by
      rw [hq2, hq1]
      simp [List.append_assoc]⟩

lemma foldDefine_caught (names : List Defn) (fuel : Nat) :
    ∀ (l : List Defn) st st',
      List.foldlM (fun st d => defineName fuel names d st) st l = .ok st' →
      st'.caught = false → st.caught = false := by
  intro l
  induction l with
  | nil =>
    intro st st' h hc
    rw [show List.foldlM (fun st d => defineName fuel names d st) st
        ([] : List Defn) = .ok st from rfl] at h
    injection h with h
    rw [h]
    exact hc
  | cons d l ih =>
    intro st st' h hc
    rw [List.foldlM_cons] at h
    obtain ⟨st1, h1, h2⟩ := (bind_ok_iff _ _ _).mp h
    have h1b : defineName fuel names d st = .ok st1 := h1
    exact defineName_caught names fuel d st st1 h1b (ih st1 st' h2 hc)

lemma foldDefine_inv (names : List Defn) (fuel : Nat) :
    ∀ (l : List Defn) st st',
      (∀ d ∈ l, nmLookup names d.name = some d) →
      List.foldlM (fun st d => defineName fuel names d st) st l = .ok st' →
      st'.caught = false → Placed names st.defined →
      Placed names st'.defined ∧ ∀ d ∈ l, d.name ∈ st'.defined := by
  intro l
  induction l with
  | nil =>
    intro st st' _ h hc hpl
    rw [show List.foldlM (fun st d => defineName fuel names d st) st
        ([] : List Defn) = .ok st from rfl] at h
    injection h with h
    subst h
    exact ⟨hpl, by intro d hd; cases hd⟩
  | cons d l ih =>
    intro st st' hl h hc hpl
    rw [List.foldlM_cons] at h
    obtain ⟨st1, h1, h2⟩ := (bind_ok_iff _ _ _).mp h
    have h1b : defineName fuel names d st = .ok st1 := h1
    have hc1 : st1.caught = false := foldDefine_caught names fuel l st1 st' h2 hc
    have hpl1 : Placed names st1.defined :=
      defineName_inv names fuel d st st1 (hl d (List.mem_cons_self ..)) h1b
        hc1 hpl
    obtain ⟨hpl2, hmem2⟩ :=
      ih st1 st' (fun w hw => hl w (List.mem_cons_of_mem d hw)) h2 hc hpl1
    refine ⟨hpl2, ?_⟩
    intro w hw
    rcases List.mem_cons.mp hw with hw | hw
    · subst hw
      obtain ⟨q1, hq1⟩ := defineName_ext names fuel w st st1 h1b
      obtain ⟨q2, hq2⟩ := foldDefine_ext names fuel l st1 st' h2
      rw [hq2, hq1]
      exact List.mem_append_left _
        (List.mem_append_right _ (List.mem_singleton.mpr rfl))
    · exact hmem2 w hw

/-- **C1 (amended), proved:** when the orderer's recursive placement
completes within the recursion limit without swallowing a single
`RecursionError` (`caught = false`, i.e. no reference cycle was
truncated) and the declared names are pairwise distinct, then in the
de-duplicated output sequence (i) there are no duplicates, (ii) every
declared definition's name occurs, and (iii) for every output name and
every reference the code chases for it — a parent name found in the
name map, or an identifier token of at least two characters scanned
from a field annotation or an alias's bound expression and found in the
name map — the reference occurs in the output and strictly precedes its
consumer.  (References via one-character names are invisible to the
scan, and a referenced name is placed immediately before its first
consumer rather than keeping its declaration position relative to
unrelated names; both parts of the original claim fail, see the
counterexample.) -/
theorem C1_order_amended (fuel : Nat) (names : List Defn) (st : OrdererState)
    (hnodup : (names.map Defn.name).Nodup)
    (hok : runDefine fuel names = .ok st)
    (hc : st.caught = false) :
    (dedupFirst st.defined).Nodup
    ∧ (∀ d ∈ names, d.name ∈ dedupFirst st.defined)
    ∧ ∀ n ∈ dedupFirst st.defined, ∀ r ∈ stepRefsCode names n,
        r ∈ dedupFirst st.defined
        ∧ firstIdx r (dedupFirst st.defined)
            < firstIdx n (dedupFirst st.defined) := by
  unfold runDefine at hok
  obtain ⟨hpl, hmem⟩ := foldDefine_inv names fuel names ⟨[], false⟩ st
    (nmLookup_self_of_nodup names hnodup) hok hc Placed.nil
  refine ⟨dedupFirst_nodup st.defined, ?_, ?_⟩
  · intro d hd
    exact (mem_dedupFirst d.name st.defined).mpr (hmem d hd)
  · intro n hn r hr
    have hnl : n ∈ st.defined := (mem_dedupFirst n st.defined).mp hn
    obtain ⟨hrl, hlt⟩ := placed_firstIdx names st.defined hpl n hnl r hr
    exact ⟨(mem_dedupFirst r st.defined).mpr hrl,
      dedupFirst_firstIdx r n st.defined hrl hnl hlt⟩

def wFoo : Defn := .cls
  { name := "Foo", parents := ["Bar"],
    variables_ := [ { name := "f", annot := some "List[Baz]" } ] }

def wBar : Defn := .cls { name := "Bar" }

def wBaz : Defn := .var
  { name := "Baz", annot := some "TypeAlias", value := some "int" }

def wNames : List Defn := [wFoo, wBar, wBaz]

def wSt : OrdererState := ⟨["Bar", "Baz", "Foo", "Bar", "Baz"], false⟩

/-- Witness for `C1_order_amended`: `Foo extends Bar` with a field
annotated `List[Baz]`; the orderer places `Bar, Baz, Foo`. -/
theorem C1_order_amended_witness :
    ((wNames.map Defn.name).Nodup ∧ runDefine 10 wNames = .ok wSt
      ∧ wSt.caught = false)
    ∧ ((dedupFirst wSt.defined).Nodup
      ∧ (∀ d ∈ wNames, d.name ∈ dedupFirst wSt.defined)
      ∧ ∀ n ∈ dedupFirst wSt.defined, ∀ r ∈ stepRefsCode wNames n,
          r ∈ dedupFirst wSt.defined
          ∧ firstIdx r (dedupFirst wSt.defined)
              < firstIdx n (dedupFirst wSt.defined)) :=
  ⟨⟨by decide, by decide, rfl⟩,
    C1_order_amended 10 wNames wSt (by decide) (by decide) rfl⟩

end PyGen
